import Mathlib

/-
Verification of `crush_migrations.py`, a one-shot maintenance script that
collapses each Django application's migration history into an initial
migration plus one squash migration.

The script is embedded shallowly:

* Python strings are Lean `String`s; the Python string operations used by the
  script (`startswith`, slicing, `strip`, `sorted`, f-string concatenation)
  are modelled at the code-point level on `String.data`, which matches
  Python's code-point semantics.
* The filesystem is an association list from paths to file contents.  Paths
  are modelled as lists of `/`-separated segments; the source builds every
  path from glob components and migration names, none of which can contain
  a separator, so the segment-list view is faithful.
* `re.subn(pat, rep, s)` is modelled by `subnLit`: leftmost, non-overlapping
  replacement of a literal match string.  Every pattern the script passes to
  `re.subn` is either a literal (up to `\(`-style escapes) or, in the
  dependency-rewrite step, a literal wrapped in a capturing group; the
  definition sites note the literal text each concrete pattern matches.
* Fallible steps return a `Step` value that carries the filesystem state at
  the point of failure, mirroring the fact that a Python exception aborts
  the process but leaves the disk as it is.
* The external migration generator (Django's `makemigrations` together with
  django-linear-migrations' maintenance of `max_migration.txt`) is not part
  of this repository; it is modelled from the spec (see `makemigrationsApp`
  and `makemigrationsAll`).
* Console output is modelled only for the operator-guidance messages printed
  by `crush_migrations` itself (the two precondition-check phases); the
  incidental progress prints of the helper functions are not modelled.
-/

/-! ### Python string operations, at code-point level -/

/-- Python `s.startswith(p)`. -/
def pyStartswith (s p : String) : Bool :=
  p.data.isPrefixOf s.data

/-- Python `s[n:]` (and `s[n:]` is total: dropping past the end gives ""). -/
def pyDrop (s : String) (n : Nat) : String :=
  String.mk (s.data.drop n)

/-- Python `s[:n]`. -/
def pyTake (s : String) (n : Nat) : String :=
  String.mk (s.data.take n)

/-- Python `s.endswith(p)`. -/
def pyEndswith (s p : String) : Bool :=
  p.data.isSuffixOf s.data

/-- Python `s.strip()`: remove whitespace from both ends. -/
def pyStrip (s : String) : String :=
  String.mk (((s.data.dropWhile Char.isWhitespace).reverse.dropWhile Char.isWhitespace).reverse)

/-- Lexicographic comparison of character lists by code point, the
ordering Python uses on strings. -/
def charListLt : List Char → List Char → Bool
  | _, [] => false
  | [], _ :: _ => true
  | a :: as, b :: bs =>
    if a.toNat < b.toNat then true
    else if b.toNat < a.toNat then false
    else charListLt as bs

/-- Python `a < b` on strings. -/
def strLtB (a b : String) : Bool :=
  charListLt a.data b.data

/-- Insert a string into a sorted list (ascending code-point order, as
Python `sorted`). -/
def insertSorted (x : String) : List String → List String
  | [] => [x]
  | y :: ys => if strLtB x y then x :: y :: ys else y :: insertSorted x ys

/-- Python `sorted` on strings.  Implemented by insertion sort; on any list
this produces the same ascending sequence as Python's stable sort, because
strings compare by full value. -/
def sortStrings (l : List String) : List String :=
  l.foldr insertSorted []

/-- Deduplication worker carrying the set of already-emitted elements. -/
def dedupFirstAux {α : Type} [DecidableEq α] (seen : List α) : List α → List α
  | [] => []
  | x :: xs =>
    if x ∈ seen then dedupFirstAux seen xs
    else x :: dedupFirstAux (seen ++ [x]) xs

/-- Keep the first occurrence of each element (used where Python iterates a
set built from a scan; the script's results do not depend on set order). -/
def dedupFirst {α : Type} [DecidableEq α] (l : List α) : List α :=
  dedupFirstAux [] l

/-- Split a character list on a separator character. -/
def splitChars (sep : Char) : List Char → List (List Char)
  | [] => [[]]
  | c :: rest =>
    match splitChars sep rest with
    | [] => [[]]
    | h :: t => if c = sep then [] :: h :: t else (c :: h) :: t

/-- The lines of a string, as produced by splitting on a newline character
(a trailing newline yields a final empty entry). -/
def strLines (s : String) : List String :=
  (splitChars (Char.ofNat 10) s.data).map String.mk

/-! ### `re.subn` for literal match text

`subnChars pat rep fuel s` scans `s` left to right; at each position where
`pat` is a prefix it emits `rep` and skips the match, otherwise it keeps
the character.  It returns the rewritten text and the number of
replacements, exactly as `re.subn` does for a pattern that matches the
fixed text `pat`.  An empty pattern is treated as matching nowhere (no
pattern in the script can match the empty string).  The `fuel` argument
makes the recursion structural; `subnLit` supplies `s.length`, which is
always sufficient because every step consumes at least one character. -/
def subnChars (pat rep : List Char) : Nat → List Char → List Char × Nat
  | _, [] => ([], 0)
  | 0, s => (s, 0)
  | fuel + 1, c :: rest =>
    if pat ≠ [] ∧ pat.isPrefixOf (c :: rest) then
      let t := subnChars pat rep fuel ((c :: rest).drop pat.length)
      (rep ++ t.1, t.2 + 1)
    else
      let t := subnChars pat rep fuel rest
      (c :: t.1, t.2)

/-- `re.subn` on strings, for a pattern matching the literal text `pat`. -/
def subnLit (pat rep s : String) : String × Nat :=
  let r := subnChars pat.data rep.data s.data.length s.data
  (String.mk r.1, r.2)

/-- `pat` occurs somewhere in `s` (as a contiguous sublist). -/
def occursIn (pat s : List Char) : Bool :=
  s.tails.any (fun t => pat.isPrefixOf t)

/-- No position strictly before `k` in `s` starts a match of `pat`. -/
def noMatchBefore (pat s : List Char) (k : Nat) : Prop :=
  ∀ i < k, ¬ (pat.isPrefixOf (s.drop i) = true)

instance (pat s : List Char) (k : Nat) : Decidable (noMatchBefore pat s k) := by
  unfold noMatchBefore; infer_instance

/-! ### Filesystem model -/

/-- A path, as the list of its `/`-separated segments relative to `BASE_DIR`. -/
abbrev FPath := List String

/-- The filesystem: an association list from paths to file contents. -/
abbrev FS := List (FPath × String)

/-- Read a file (`Path.read_text`), `none` when the file does not exist. -/
def FS.read (fs : FS) (p : FPath) : Option String :=
  (fs.find? (fun e => e.1 = p)).map (fun e => e.2)

/-- Write a file (`Path.write_text`): overwrite in place, or create. -/
def FS.write : FS → FPath → String → FS
  | [], p, c => [(p, c)]
  | e :: rest, p, c => if e.1 = p then (p, c) :: rest else e :: FS.write rest p c

/-- Delete a file (`Path.unlink`). -/
def FS.erase : FS → FPath → FS
  | [], _ => []
  | e :: rest, p => if e.1 = p then FS.erase rest p else e :: FS.erase rest p

/-- The list of existing paths. -/
def FS.keys (fs : FS) : List FPath :=
  fs.map (fun e => e.1)

/-! ### FPath helpers from the source -/

/-- `get_migration_path(app, migration, ext)`:
`f"{app}/migrations/{migration}.{ext}"`. -/
def get_migration_path (app migration : String) (ext : String) : FPath :=
  [app, "migrations", migration ++ "." ++ ext]

/-- `get_max_migration_path(app)`. -/
def get_max_migration_path (app : String) : FPath :=
  get_migration_path app "max_migration" "txt"

/-- `get_dep_entry(app, migration)`: the text `("app", "migration")`. -/
def get_dep_entry (app migration : String) : String :=
  "(\"" ++ app ++ "\", \"" ++ migration ++ "\")"

/-- The literal text actually matched when `get_dep_entry`'s result is used
as a `re` pattern: the parentheses are a capturing group, not literal
characters, so the pattern matches only the inner text
`"app", "migration"`.  (App and migration names consist of identifier
characters, which carry no regex meaning.) -/
def dep_entry_matched (app migration : String) : String :=
  "\"" ++ app ++ "\", \"" ++ migration ++ "\""

/-! ### Inventory (`list_migrations`, `list_model_files`) -/

/-- Applications discovered by `BASE_DIR.glob("*/migrations")`: the first
segment of every path lying strictly inside some `app/migrations`
directory, first occurrence first. -/
def migrationApps (fs : FS) : List String :=
  dedupFirst (fs.filterMap (fun e =>
    match e.1 with
    | app :: "migrations" :: _ :: _ => some app
    | _ => none))

/-- The stem of a `*.py` file name (drop the three characters `.py`). -/
def pyStem (f : String) : String :=
  String.mk (f.data.take (f.data.length - 3))

/-- The contribution of one directory entry to
`migration_dir.glob("*.py")`: the stem of a `.py` file directly inside
`app/migrations`, excluding `__init__`. -/
def stemEntry (app : String) (e : FPath × String) : Option String :=
  match e.1 with
  | [a, m, f] =>
    if a = app ∧ m = "migrations" ∧ pyEndswith f ".py" = true ∧ ¬ f = "__init__.py" then
      some (pyStem f)
    else none
  | _ => none

/-- `sorted(p.stem for p in migration_dir.glob("*.py") if p.stem != "__init__")`. -/
def migrationStems (fs : FS) (app : String) : List String :=
  sortStrings (fs.filterMap (stemEntry app))

/-- `(migration_dir / "__init__.py").exists()`. -/
def hasInit (fs : FS) (app : String) : Bool :=
  (FS.read fs [app, "migrations", "__init__.py"]).isSome

/-- A fallible computation: either a value, or the error together with the
filesystem state at the moment the exception escaped. -/
inductive Step (α : Type) where
  | ok (a : α)
  | fail (e : String) (fs : FS)
deriving DecidableEq

/-- `list_migrations()`: per application, the sorted migration stems and the
stripped content of the head pointer file.  The source asserts the presence
of `__init__.py` and reads `max_migration.txt` inside its loop; since the
function only reads, checking the preconditions for all applications up
front is observationally the same embedding. -/
def list_migrations (fs : FS) : Step (List (String × List String) × List (String × String)) :=
  if (migrationApps fs).all
      (fun a => hasInit fs a && (FS.read fs (get_max_migration_path a)).isSome) then
    Step.ok
      ((migrationApps fs).map (fun a => (a, migrationStems fs a)),
       (migrationApps fs).map
         (fun a => (a, pyStrip ((FS.read fs (get_max_migration_path a)).getD ""))))
  else
    Step.fail "list_migrations: missing __init__.py or max_migration.txt" fs

/-- A path matched by `glob("**/models/**/*.py")` or `glob("**/models.py")`. -/
def isModelFile (p : FPath) : Bool :=
  match p.getLast? with
  | none => false
  | some f => f = "models.py" || (pyEndswith f ".py" && p.dropLast.contains "models")

/-- `list_model_files()` (a Python set; modelled as the deduplicated scan
of existing paths, whose order the script never depends on). -/
def list_model_files (fs : FS) : List FPath :=
  dedupFirst (fs.filterMap (fun e => if isModelFile e.1 then some e.1 else none))

/-! ### The reversible patcher (`Replacer` / `replace`) -/

/-- Apply an ordered list of `(match text, replacement)` substitutions to a
file content, as the inner loop of `replace` does: each substitution runs
`re.subn` on the result of the previous one, and unless `optional` is set,
`assert optional or num_subs` aborts when a substitution matched nowhere. -/
def applySubsts (subs : List (String × String)) (optional : Bool) (content : String) :
    Except String String :=
  match subs with
  | [] => Except.ok content
  | sub :: rest =>
    let r := subnLit sub.1 sub.2 content
    if optional || decide (r.2 ≠ 0) then applySubsts rest optional r.1
    else Except.error "AssertionError: optional or num_subs"

/-- The match count of each substitution in the chained run of
`applySubsts` on `content` (specification-side view of the mandatory-match
condition). -/
def mandatoryCounts (subs : List (String × String)) (content : String) : List Nat :=
  match subs with
  | [] => []
  | sub :: rest =>
    let r := subnLit sub.1 sub.2 content
    r.2 :: mandatoryCounts rest r.1

/-- The file loop of `replace`: for each file, record it in `to_restore`,
read it, apply all substitutions (asserting mandatory matches), and only
then write the result back.  On an exception the `Step.fail` carries the
filesystem exactly as it was when the exception was raised. -/
def replaceFiles (subs : List (String × String)) (files : List FPath) (optional : Bool)
    (fs : FS) (touched : List FPath) : Step (FS × List FPath) :=
  match files with
  | [] => Step.ok (fs, touched)
  | f :: rest =>
    let touched := touched ++ [f]
    match FS.read fs f with
    | none => Step.fail "FileNotFoundError" fs
    | some content =>
      match applySubsts subs optional content with
      | Except.error e => Step.fail e fs
      | Except.ok c => replaceFiles subs rest optional (FS.write fs f c) touched

/-- One action performed inside a `with Replacer(...) as replace:` block:
a call to the `replace` closure (whose file list may be computed from the
filesystem at the moment of the call, as `list_model_files()` is), some
other filesystem effect (the generator subprocesses), or an exception
raised by the body. -/
inductive BodyStep where
  | rep (subs : List (String × String)) (files : FS → List FPath) (optional : Bool)
  | act (f : FS → FS)
  | raiseE (e : String)

/-- Run the body of a `with Replacer(...)` block, threading the filesystem
and the `to_restore` accumulation.  An exception escapes immediately. -/
def runBody (steps : List BodyStep) (fs : FS) (touched : List FPath) :
    Step (FS × List FPath) :=
  match steps with
  | [] => Step.ok (fs, touched)
  | BodyStep.rep subs files optional :: rest =>
    match replaceFiles subs (files fs) optional fs touched with
    | Step.fail e f => Step.fail e f
    | Step.ok (fs₁, touched₁) => runBody rest fs₁ touched₁
  | BodyStep.act f :: rest => runBody rest (f fs) touched
  | BodyStep.raiseE e :: _ => Step.fail e fs

/-- `run("git", "checkout", *paths)` with `check=True`: git refuses the
whole command when some pathspec matches no committed file, otherwise it
rewrites every named path to its committed content. -/
def gitCheckout (committed : FPath → Option String) (paths : List FPath) (fs : FS) :
    Step FS :=
  if ∀ p ∈ paths, (committed p).isSome then
    Step.ok (paths.foldl (fun acc p => FS.write acc p ((committed p).getD "")) fs)
  else
    Step.fail "git checkout: pathspec did not match" fs

/-- The `Replacer` context manager.  The generator body is a bare
`yield replace` with no `try`/`finally`, so when the body raises, the
code after the yield never runs: the revert checkout is skipped and the
exception propagates with the filesystem as the body left it.  On normal
exit with `auto_revert` the tracked files are checked out. -/
def withReplacer (committed : FPath → Option String) (autoRevert : Bool)
    (steps : List BodyStep) (fs : FS) : Step FS :=
  match runBody steps fs [] with
  | Step.fail e f => Step.fail e f
  | Step.ok (fs₁, touched) =>
    if autoRevert then gitCheckout committed touched fs₁ else Step.ok fs₁

/-! ### External effects and inputs of one run -/

/-- The inputs of a run that are not part of this repository's code:

* `hasReplaces c`: the truthiness of `Migration.replaces` obtained by
  importing a migration module whose file content is `c`;
* `committed`: the committed (git HEAD) content of each path, used by
  every checkout;
* `squashName`: the `datetime.now()`-derived name
  `squashed_on_%Y%m%d_%H%M%S`;
* `initContent app name` / `squashContent app`: the file contents the
  external generator produces. -/
structure Env where
  hasReplaces : String → Bool
  committed : FPath → Option String
  squashName : String
  initContent : String → String → String
  squashContent : String → String

/-- Modelled from the spec: `manage.py makemigrations app -n name`, invoked
while the application's migration directory holds no migrations, recreates
a single initial migration reusing the given name — the generator numbers
it `0001` — and (django-linear-migrations) rewrites the head pointer file
to name it. -/
def makemigrationsApp (initContent : String → String → String) (app name : String)
    (fs : FS) : FS :=
  FS.write
    (FS.write fs (get_migration_path app ("0001_" ++ name) "py") (initContent app name))
    (get_max_migration_path app) ("0001_" ++ name ++ "\n")

/-- Modelled from the spec: the global `manage.py makemigrations -n name`
run produces one additional squash migration per application with the given
name — numbered after the initial migration, hence `0002` — and rewrites
each application's head pointer file to name it. -/
def makemigrationsAll (squashContent : String → String) (squashName : String) :
    List String → FS → FS
  | [], fs => fs
  | app :: rest, fs =>
    makemigrationsAll squashContent squashName rest
      (FS.write
        (FS.write fs (get_migration_path app ("0002_" ++ squashName) "py")
          (squashContent app))
        (get_max_migration_path app) ("0002_" ++ squashName ++ "\n"))

/-! ### The phases of `crush_migrations` -/

/-- The messages of the insufficient-migrations check (two lines per
offending application). -/
def insufficientLog (cur : List (String × List String)) : List String :=
  cur.foldl (fun acc pr =>
    if pr.2.length < 2 then
      acc ++ [pr.1 ++ " has insufficient migrations for crushing",
              "find an excuse to make another one"]
    else acc) []

/-- The existing-squash scan: every `(app, migration)` whose imported
module has a truthy `Migration.replaces`.  The reads cannot fail for an
inventory produced from the same filesystem; failure is still represented
for fidelity. -/
def findSquashes (hasReplaces : String → Bool) (fs : FS)
    (cur : List (String × List String)) : Step (List (String × String)) :=
  if cur.all (fun pr => pr.2.all (fun m => (FS.read fs (get_migration_path pr.1 m "py")).isSome)) then
    Step.ok (cur.foldl (fun acc pr =>
      acc ++ (pr.2.filter (fun m =>
        hasReplaces ((FS.read fs (get_migration_path pr.1 m "py")).getD ""))).map
          (fun m => (pr.1, m))) [])
  else
    Step.fail "ModuleNotFoundError" fs

/-- The operator guidance printed when existing squash migrations are
found (lines 114–130 of the source, with `bad_apps` iterated in sorted
order). -/
def squashLog (hits : List (String × String)) : List String :=
  let badApps := sortStrings (dedupFirst (hits.map (fun h => h.1)))
  (hits.map (fun h => "Existing squash " ++ h.1 ++ ".migrations." ++ h.2)) ++
  ["",
   "Can\x27t crush with existing squashes, clean them up first",
   "delete_squashed_migrations is whitespace sensitive",
   "and doesn\x27t handle cross app dependencies well",
   "so we run it once to delete the files",
   "then we reformat to very long lines",
   "and then run it again to remove the \x27replaces=\x27 lines",
   "then we reformat back to normal",
   ""] ++
  badApps.map (fun app => "python manage.py delete_squashed_migrations " ++ app ++ " --noinput") ++
  ["black -l 1000000 */migrations/*.py"] ++
  badApps.map (fun app => "python manage.py delete_squashed_migrations " ++ app ++ " --noinput") ++
  ["black */migrations/*.py"]

/-- Delete every listed migration file.  The source unlinks in a loop and
raises on a missing file; as the inventory was taken from this same
filesystem, all files exist, and the model checks that up front. -/
def deleteMigrations (cur : List (String × List String)) (fs : FS) : Step FS :=
  if cur.all (fun pr => pr.2.all (fun m => (FS.read fs (get_migration_path pr.1 m "py")).isSome)) then
    Step.ok (cur.foldl (fun acc pr =>
      pr.2.foldl (fun acc2 m => FS.erase acc2 (get_migration_path pr.1 m "py")) acc) fs)
  else
    Step.fail "FileNotFoundError" fs

/-- The three patch sets applied inside the first `Replacer` block.  Each
pair is (literal text matched by the source's regex, replacement); the
source escapes `(`, `)`, `[` with backslashes, so each pattern matches
exactly the literal shown. -/
def commonModelsSubsts : List (String × String) :=
  [("ForeignKey = ", "ForeignKey = lambda *args, **kwargs: None and "),
   ("OneToOneField = ", "OneToOneField = lambda *args, **kwargs: None and "),
   ("ManyToManyField = ", "ManyToManyField = lambda *args, **kwargs: None and "),
   ("PositiveIntegerField = ", "PositiveIntegerField = lambda *args, **kwargs: None and "),
   ("class FirmField(ForeignKey):", "FirmField = ForeignKey\nclass X:")]

/-- The index/constraint/unique patches applied to all model files. -/
def modelIndexSubsts : List (String × String) :=
  [("        indexes = [", "        indexes = [] and ["),
   ("        constraints = [", "        constraints = [] and ["),
   ("        unique_together = [", "        unique_together = [] and ["),
   ("        indexes = (", "        indexes = () and ("),
   ("        constraints = (", "        constraints = () and ("),
   ("        unique_together = (", "        unique_together = () and (")]

/-- The admin-app patches. -/
def adminSubsts : List (String × String) :=
  [("from django.contrib.admin.apps import AdminConfig",
    "from django.apps import AppConfig as AdminConfig"),
   ("def ready", "def xready")]

/-- The three `replace` calls of the first `Replacer` block, in order; the
model-file list is computed from the filesystem at the moment of the call,
as `list_model_files()` is in the source. -/
def patchSteps : List BodyStep :=
  [BodyStep.rep commonModelsSubsts (fun _ => [["common", "models.py"]]) false,
   BodyStep.rep modelIndexSubsts (fun fs => list_model_files fs) true,
   BodyStep.rep adminSubsts (fun _ => [["admin", "apps.py"]]) false]

/-- The initial-generation loop, still inside the first `Replacer` block:
for each application, `assert first_migration.startswith("0001_")`, then
invoke the generator with the name `first_migration[5:]`. -/
def genSteps (initContent : String → String → String) :
    List (String × List String) → List BodyStep
  | [] => []
  | pr :: rest =>
    (match pr.2 with
     | [] => [BodyStep.raiseE "IndexError: migrations[0]"]
     | first :: _ =>
       if pyStartswith first "0001_" then
         [BodyStep.act (makemigrationsApp initContent pr.1 (pyDrop first 5))]
       else
         [BodyStep.raiseE "AssertionError: first_migration.startswith"]) ++
    genSteps initContent rest

/-- The cumulative filesystem effect of the initial-generation loop in the
case where every application passes its name assertion. -/
def applyGens (ic : String → String → String) :
    List (String × List String) → FS → FS
  | [], fs => fs
  | pr :: rest, fs =>
    applyGens ic rest
      (match pr.2 with
       | [] => fs
       | first :: _ => makemigrationsApp ic pr.1 (pyDrop first 5) fs)

/-- The `replaces` entry lines written for the given migrations, one
indented `get_dep_entry` line per migration. -/
def replacesLines (app : String) : List String → String
  | [] => ""
  | m :: rest => "        " ++ get_dep_entry app m ++ ",\n" ++ replacesLines app rest

/-- The text appended to an application's squash migration:
`    replaces = [` then one indented `get_dep_entry` line per original
migration except the first, then `    ]`. -/
def replacesBlock (app : String) (migs : List String) : String :=
  "    replaces = [\n" ++ replacesLines app (migs.drop 1) ++ "    ]\n"

/-- `next(BASE_DIR.glob(get_migration_path(app, f"*_{squash_name}")))`: the
first existing path `app/migrations/<f>` with `<f>` matching
`*_{squash_name}.py`. -/
def findSquashPath (fs : FS) (app squashName : String) : Option FPath :=
  (fs.find? (fun e =>
    match e.1 with
    | [a, m, f] => a = app ∧ m = "migrations" ∧ pyEndswith f ("_" ++ squashName ++ ".py") = true
    | _ => false)).map (fun e => e.1)

/-- Append the `replaces` declaration to each application's squash
migration (`open("a")` appends to the found file).  `next` on an empty
glob raises; the model checks the globs up front. -/
def appendReplacesAll (squashName : String) (cur : List (String × List String))
    (fs : FS) : Step FS :=
  if cur.all (fun pr => (findSquashPath fs pr.1 squashName).isSome) then
    Step.ok (cur.foldl (fun acc pr =>
      FS.write acc ((findSquashPath fs pr.1 squashName).getD [])
        ((FS.read acc ((findSquashPath fs pr.1 squashName).getD [])).getD ""
          ++ replacesBlock pr.1 pr.2)) fs)
  else
    Step.fail "StopIteration" fs

/-- Build the dependency-rewrite substitution list from the fresh
inventory: per application, assert it now has exactly two migrations whose
first is numbered `0001`, and map the squash dependency entry (as matched
by `re`: the group does not match the parentheses) to the full initial
dependency entry text. -/
def buildDepSubsts (inv2 : List (String × List String)) (fs : FS) :
    Step (List (String × String)) :=
  if inv2.all (fun pr => decide (pr.2.length = 2) && pyStartswith (pr.2.headD "") "0001_") then
    Step.ok (inv2.map (fun pr =>
      (dep_entry_matched pr.1 (pr.2.getD 1 ""), get_dep_entry pr.1 (pr.2.headD ""))))
  else
    Step.fail "AssertionError: len(migrations) == 2 and 0001_ head" fs

/-- The dependency-rewrite `replace` calls: for each application, apply the
whole substitution list to that application's two migration files,
optionally (no mandatory-match assertion). -/
def rewriteSteps (inv2 : List (String × List String)) (subs : List (String × String)) :
    List BodyStep :=
  inv2.map (fun pr =>
    BodyStep.rep subs (fun _ => pr.2.map (fun m => get_migration_path pr.1 m "py")) true)

/-- Association-list lookup (Python `dict[key]`). -/
def lookupA (l : List (String × String)) (k : String) : Option String :=
  (l.find? (fun e => e.1 = k)).map (fun e => e.2)

/-- Renumber each squash migration: for every `(app, orig_head)` of the
original head map, look up the regenerated head, build
`new_head = orig_head[:4] + existing_head[4:]`, rename the file and
rewrite the head pointer file.  A missing key or file raises; the model
checks the lookups and the files up front. -/
def renumber (heads2 : List (String × String)) (pairs : List (String × String))
    (fs : FS) : Step FS :=
  if pairs.all (fun pr =>
      (lookupA heads2 pr.1).isSome &&
      (FS.read fs (get_migration_path pr.1 ((lookupA heads2 pr.1).getD "") "py")).isSome) then
    Step.ok (pairs.foldl (fun acc pr =>
      let existingHead := (lookupA heads2 pr.1).getD ""
      let newHead := pyTake pr.2 4 ++ pyDrop existingHead 4
      let existingPath := get_migration_path pr.1 existingHead "py"
      let c := (FS.read acc existingPath).getD ""
      FS.write
        (FS.write (FS.erase acc existingPath) (get_migration_path pr.1 newHead "py") c)
        (get_max_migration_path pr.1) (newHead ++ "\n")) fs)
  else
    Step.fail "KeyError or FileNotFoundError" fs

/-- Restore the originally-deleted migration files except each
application's first, one `git checkout` per application. -/
def restore (committed : FPath → Option String) :
    List (String × List String) → FS → Step FS
  | [], fs => Step.ok fs
  | pr :: rest, fs =>
    match gitCheckout committed ((pr.2.drop 1).map (fun m => get_migration_path pr.1 m "py")) fs with
    | Step.fail e f => Step.fail e f
    | Step.ok fs₁ => restore committed rest fs₁

/-- Which `return` statement (or fall-through) `crush_migrations` reached. -/
inductive Outcome where
  | insufficient
  | existingSquashes
  | completed
deriving DecidableEq

/-- `crush_migrations()`: the full pipeline.  The result carries the final
filesystem and the modelled operator-guidance output. -/
def crush_migrations (E : Env) (fs0 : FS) : Step (Outcome × FS × List String) :=
  match list_migrations fs0 with
  | Step.fail e f => Step.fail e f
  | Step.ok (cur, heads1) =>
    if cur.any (fun pr => pr.2.length < 2) then
      Step.ok (Outcome.insufficient, fs0, insufficientLog cur)
    else
      match findSquashes E.hasReplaces fs0 cur with
      | Step.fail e f => Step.fail e f
      | Step.ok hits =>
        if ¬ hits = [] then
          Step.ok (Outcome.existingSquashes, fs0, squashLog hits)
        else
          match deleteMigrations cur fs0 with
          | Step.fail e f => Step.fail e f
          | Step.ok fsC =>
            match withReplacer E.committed true (patchSteps ++ genSteps E.initContent cur) fsC with
            | Step.fail e f => Step.fail e f
            | Step.ok fsD =>
              let fsE := makemigrationsAll E.squashContent E.squashName (cur.map (fun pr => pr.1)) fsD
              match appendReplacesAll E.squashName cur fsE with
              | Step.fail e f => Step.fail e f
              | Step.ok fsF =>
                match list_migrations fsF with
                | Step.fail e f => Step.fail e f
                | Step.ok (inv2, heads2) =>
                  match buildDepSubsts inv2 fsF with
                  | Step.fail e f => Step.fail e f
                  | Step.ok subs =>
                    match withReplacer E.committed false (rewriteSteps inv2 subs) fsF with
                    | Step.fail e f => Step.fail e f
                    | Step.ok fsG =>
                      match renumber heads2 heads1 fsG with
                      | Step.fail e f => Step.fail e f
                      | Step.ok fsH =>
                        match restore E.committed cur fsH with
                        | Step.fail e f => Step.fail e f
                        | Step.ok fsI => Step.ok (Outcome.completed, fsI, [])

/-! ### Concrete run fixtures (used by counterexamples and witnesses) -/

/-- A model base file containing every mandatory pattern of the first
patch set. -/
def cmContent : String :=
  "ForeignKey = 1\nOneToOneField = 2\nManyToManyField = 3\nPositiveIntegerField = 4\nclass FirmField(ForeignKey):\n    pass\n"

/-- An admin apps file containing both mandatory admin patterns. -/
def adContent : String :=
  "from django.contrib.admin.apps import AdminConfig\nclass A:\n    def ready(self):\n        pass\n"

/-- A filesystem with one application `alpha` holding three migrations. -/
def scFS : FS :=
  [(["alpha", "migrations", "__init__.py"], ""),
   (["alpha", "migrations", "0001_start.py"], "# m1"),
   (["alpha", "migrations", "0002_b.py"], "# m2"),
   (["alpha", "migrations", "0003_c.py"], "# m3"),
   (["alpha", "migrations", "max_migration.txt"], "0003_c\n"),
   (["common", "models.py"], cmContent),
   (["admin", "apps.py"], adContent)]

/-- The committed (git HEAD) contents backing `scFS`. -/
def scCommitted : FPath → Option String := fun p =>
  if p = ["common", "models.py"] then some cmContent
  else if p = ["admin", "apps.py"] then some adContent
  else if p = ["alpha", "migrations", "0002_b.py"] then some "# m2"
  else if p = ["alpha", "migrations", "0003_c.py"] then some "# m3"
  else none

/-- The external inputs of the concrete runs. -/
def scEnv : Env :=
  { hasReplaces := fun c => pyStartswith c "REPLACES"
    committed := scCommitted
    squashName := "squashed_on_20260101_000000"
    initContent := fun app name => "# init " ++ app ++ " " ++ name
    squashContent := fun app => "dependencies = []\n# squash " ++ app }

/-- A filesystem whose only application has a single migration. -/
def scFS5 : FS :=
  [(["beta", "migrations", "__init__.py"], ""),
   (["beta", "migrations", "0001_only.py"], "# m1"),
   (["beta", "migrations", "max_migration.txt"], "0001_only\n")]

/-- A filesystem whose application `gamma` has an existing squash: the
second migration's module has a truthy `Migration.replaces`. -/
def scFS6 : FS :=
  [(["gamma", "migrations", "__init__.py"], ""),
   (["gamma", "migrations", "0001_a.py"], "# plain"),
   (["gamma", "migrations", "0002_sq.py"], "REPLACES marker"),
   (["gamma", "migrations", "max_migration.txt"], "0002_sq\n")]

/-- Fixture for the reversible-patcher claims: a single tracked file. -/
def c7fs : FS := [(["f.txt"], "a")]

/-- Committed content of the `c7fs` fixture. -/
def c7committed : FPath → Option String := fun p =>
  if p = ["f.txt"] then some "a" else none

/-- A body that patches the file and then raises. -/
def c7stepsRaise : List BodyStep :=
  [BodyStep.rep [("a", "b")] (fun _ => [["f.txt"]]) false,
   BodyStep.raiseE "RuntimeError"]

/-- The same body without the exception. -/
def c7stepsOk : List BodyStep :=
  [BodyStep.rep [("a", "b")] (fun _ => [["f.txt"]]) false]

/-- Fixture for the dependency-rewrite claim: one application whose fresh
squash migration depends on itself being referenced from a dependencies
list. -/
def c2inv2 : List (String × List String) := [("alpha", ["0001_init", "0002_sq"])]

/-- Fresh migration files for the `c2inv2` fixture. -/
def c2fs : FS :=
  [(["alpha", "migrations", "0001_init.py"], "# i"),
   (["alpha", "migrations", "0002_sq.py"], "deps = [(\"alpha\", \"0002_sq\")]\n")]

/-- Fixture for the replaces-annotation claim: one application and its
freshly generated squash migration file. -/
def c3cur : List (String × List String) := [("alpha", ["0001_a", "0002_b", "0003_c"])]

/-- The squash file awaiting its `replaces` annotation. -/
def c3fs : FS := [(["alpha", "migrations", "0002_sq20.py"], "content")]

/-- The result of the concrete completed run on `scFS` (used by the
end-to-end counterexample and witnesses). -/
def scOut : Outcome × FS × List String :=
  match crush_migrations scEnv scFS with
  | Step.ok o => o
  | Step.fail _ f => (Outcome.insufficient, f, [])

/-! ### Basic filesystem lemmas -/

theorem FS.read_cons (e : FPath × String) (rest : FS) (q : FPath) :
    FS.read (e :: rest) q = if e.1 = q then some e.2 else FS.read rest q := by
  by_cases h : e.1 = q
  · simp [FS.read, List.find?, h]
  · simp [FS.read, List.find?, h]

theorem FS.read_write (fs : FS) (p q : FPath) (c : String) :
    FS.read (FS.write fs p c) q = if q = p then some c else FS.read fs q := by
  induction fs with
  | nil =>
    by_cases hq : q = p
    · simp [FS.write, FS.read, List.find?, hq]
    · have : ¬ p = q := fun h => hq h.symm
      simp [FS.write, FS.read, List.find?, hq, this]
  | cons e rest ih =>
    by_cases he : e.1 = p
    · simp only [FS.write, if_pos he, FS.read_cons]
      by_cases hq : q = p
      · simp [hq]
      · have hpq : ¬ p = q := fun h => hq h.symm
        have heq : ¬ e.1 = q := by rw [he]; exact hpq
        simp [hq, hpq, heq]
    · simp only [FS.write, if_neg he]
      rw [FS.read_cons, FS.read_cons, ih]
      by_cases heq : e.1 = q
      · have hq : ¬ q = p := by intro h; rw [h] at heq; exact he heq
        simp [heq, hq]
      · simp [heq]

theorem FS.read_erase (fs : FS) (p q : FPath) :
    FS.read (FS.erase fs p) q = if q = p then none else FS.read fs q := by
  induction fs with
  | nil => simp [FS.erase, FS.read, List.find?]
  | cons e rest ih =>
    by_cases he : e.1 = p
    · simp only [FS.erase, if_pos he]
      rw [ih, FS.read_cons]
      by_cases hq : q = p
      · simp [hq]
      · have heq : ¬ e.1 = q := by rw [he]; intro h; exact hq h.symm
        simp [hq, heq]
    · simp only [FS.erase, if_neg he]
      rw [FS.read_cons, FS.read_cons, ih]
      by_cases heq : e.1 = q
      · have hq : ¬ q = p := by intro h; rw [h] at heq; exact he heq
        simp [heq, hq]
      · simp [heq]

/-! ### Membership lemmas for sorting and inventory -/

theorem mem_insertSorted (x y : String) (l : List String) :
    y ∈ insertSorted x l ↔ y = x ∨ y ∈ l := by
  induction l with
  | nil => simp [insertSorted]
  | cons z zs ih =>
    simp only [insertSorted]
    by_cases h : strLtB x z = true
    · simp [h]
    · simp only [if_neg h, List.mem_cons, ih]
      tauto

theorem mem_sortStrings (x : String) (l : List String) :
    x ∈ sortStrings l ↔ x ∈ l := by
  induction l with
  | nil => simp [sortStrings]
  | cons z zs ih =>
    simp only [sortStrings, List.foldr_cons]
    rw [show List.foldr insertSorted [] zs = sortStrings zs from rfl]
    rw [mem_insertSorted, ih, List.mem_cons]

theorem length_insertSorted (x : String) (l : List String) :
    (insertSorted x l).length = l.length + 1 := by
  induction l with
  | nil => simp [insertSorted]
  | cons z zs ih =>
    simp only [insertSorted]
    by_cases h : strLtB x z = true
    · simp [h]
    · simp [h, ih]

theorem nodup_insertSorted (x : String) (l : List String) (hx : ¬ x ∈ l)
    (hl : l.Nodup) : (insertSorted x l).Nodup := by
  induction l with
  | nil => simp [insertSorted]
  | cons z zs ih =>
    simp only [insertSorted]
    by_cases h : strLtB x z = true
    · simp only [if_pos h]
      exact List.Nodup.cons hx hl
    · simp only [if_neg h, List.nodup_cons]
      simp only [List.mem_cons, not_or] at hx
      constructor
      · rw [mem_insertSorted]
        rcases List.nodup_cons.mp hl with ⟨hz, _⟩
        rintro (rfl | hmem)
        · exact hx.1 rfl
        · exact hz hmem
      · exact ih hx.2 (List.nodup_cons.mp hl).2

theorem nodup_sortStrings (l : List String) (h : l.Nodup) :
    (sortStrings l).Nodup := by
  induction l with
  | nil => simp [sortStrings]
  | cons z zs ih =>
    simp only [sortStrings, List.foldr_cons]
    rw [show List.foldr insertSorted [] zs = sortStrings zs from rfl]
    rcases List.nodup_cons.mp h with ⟨hz, hzs⟩
    refine nodup_insertSorted _ _ ?_ (ih hzs)
    rw [mem_sortStrings]; exact hz

/-! ### String decomposition helpers -/

theorem dot_ext_py (s : String) : s ++ "." ++ "py" = s ++ ".py" := by
  apply String.ext
  rw [String.data_append, String.data_append, String.data_append, List.append_assoc]
  rfl

theorem append_right_cancel_str (a b t : String) (h : a ++ t = b ++ t) : a = b := by
  apply String.ext
  have hd : a.data ++ t.data = b.data ++ t.data := by
    rw [← String.data_append, ← String.data_append, h]
  exact List.append_cancel_right hd

/-- A `.py` file name decomposes as its stem plus the extension. -/
theorem pyExt_decomp (f : String) (h : pyEndswith f ".py" = true) :
    f = pyStem f ++ ".py" := by
  unfold pyEndswith at h
  rw [List.isSuffixOf_iff_suffix] at h
  rcases h with ⟨t, ht⟩
  have hlen : f.data.length = t.length + 3 := by
    rw [← ht, List.length_append]; rfl
  have hstem : (pyStem f).data = t := by
    unfold pyStem
    show f.data.take (f.data.length - 3) = t
    rw [hlen, Nat.add_sub_cancel, ← ht]
    exact List.take_left t _
  apply String.ext
  rw [String.data_append, hstem, ht]

theorem pyStem_append_py (s : String) : pyStem (s ++ ".py") = s := by
  apply String.ext
  unfold pyStem
  show (s ++ ".py").data.take ((s ++ ".py").data.length - 3) = s.data
  rw [String.data_append, List.length_append]
  rw [show (".py".data.length) = 3 from rfl, Nat.add_sub_cancel]
  exact List.take_left s.data _

theorem pyEndswith_append_py (s : String) : pyEndswith (s ++ ".py") ".py" = true := by
  unfold pyEndswith
  rw [List.isSuffixOf_iff_suffix, String.data_append]
  exact ⟨s.data, rfl⟩

/-- Characterization of one glob entry. -/
theorem stemEntry_eq_some (app s : String) (e : FPath × String) :
    stemEntry app e = some s ↔
      (¬ s = "__init__" ∧ e.1 = get_migration_path app s "py") := by
  unfold stemEntry
  rcases e with ⟨p, c⟩
  rcases p with _ | ⟨a, p⟩
  · simp [get_migration_path]
  rcases p with _ | ⟨m, p⟩
  · simp [get_migration_path]
  rcases p with _ | ⟨f, p⟩
  · simp [get_migration_path]
  rcases p with _ | ⟨x, p⟩
  · simp only []
    constructor
    · intro he
      split at he
      · rename_i hcond
        rcases hcond with ⟨ha, hm, hew, hni⟩
        have hs : pyStem f = s := Option.some_injective _ he
        have hfd : f = s ++ ".py" := by rw [← hs]; exact pyExt_decomp f hew
        refine ⟨?_, ?_⟩
        · intro hsi
          apply hni
          rw [hfd, hsi]; rfl
        · rw [ha, hm, hfd]
          unfold get_migration_path
          rw [dot_ext_py]
      · exact absurd he (by simp)
    · rintro ⟨hni, hkey⟩
      have h3 : a = app ∧ m = "migrations" ∧ f = s ++ "." ++ "py" := by
        have := hkey
        unfold get_migration_path at this
        injection this with h1 h2
        injection h2 with h2a h2b
        injection h2b with h2c h2d
        exact ⟨h1, h2a, h2c⟩
      rcases h3 with ⟨ha, hm, hf⟩
      have hf2 : f = s ++ ".py" := by rw [hf, dot_ext_py]
      have hnif : ¬ f = "__init__.py" := by
        intro hcontra
        apply hni
        apply append_right_cancel_str s "__init__" ".py"
        rw [← hf2, hcontra]
        rfl
      rw [if_pos ⟨ha, hm, by rw [hf2]; exact pyEndswith_append_py s, hnif⟩]
      rw [hf2, pyStem_append_py]
  · simp [get_migration_path]

/-- Membership in the migration inventory of an application is exactly
existence of the corresponding `.py` file (other than `__init__.py`). -/
theorem mem_migrationStems (fs : FS) (app s : String) :
    s ∈ migrationStems fs app ↔
      (¬ s = "__init__" ∧ (FS.read fs (get_migration_path app s "py")).isSome = true) := by
  unfold migrationStems
  rw [mem_sortStrings, List.mem_filterMap]
  constructor
  · rintro ⟨e, hmem, he⟩
    rcases (stemEntry_eq_some app s e).mp he with ⟨hni, hkey⟩
    refine ⟨hni, ?_⟩
    unfold FS.read
    rw [Option.isSome_map', List.find?_isSome]
    exact ⟨e, hmem, by simp [hkey]⟩
  · rintro ⟨hni, hread⟩
    unfold FS.read at hread
    rw [Option.isSome_map', List.find?_isSome] at hread
    rcases hread with ⟨e, hmem, hkey⟩
    refine ⟨e, hmem, (stemEntry_eq_some app s e).mpr ⟨hni, by simpa using hkey⟩⟩

/-! ### Lemmas about `replace` and the `Replacer` body -/

theorem applySubsts_ok_iff (subs : List (String × String)) (content : String) :
    (∃ c, applySubsts subs false content = Except.ok c) ↔
      (mandatoryCounts subs content).all (fun n => decide (0 < n)) = true := by
  induction subs generalizing content with
  | nil => simp [applySubsts, mandatoryCounts]
  | cons sub rest ih =>
    simp only [applySubsts, mandatoryCounts, Bool.false_or, List.all_cons,
      Bool.and_eq_true, decide_eq_true_eq]
    by_cases h0 : (subnLit sub.1 sub.2 content).2 = 0
    · rw [h0]
      simp only [ne_eq, not_true_eq_false, decide_False, if_false]
      constructor
      · rintro ⟨c, hc⟩; cases hc
      · rintro ⟨h1, _⟩; omega
    · rw [if_pos (by simpa using h0)]
      rw [ih]
      have : 0 < (subnLit sub.1 sub.2 content).2 := Nat.pos_of_ne_zero h0
      simp [this]

theorem replaceFiles_ok_isSome (subs : List (String × String)) (files : List FPath)
    (optional : Bool) (fs' : FS) (t' : List FPath) :
    ∀ (fs : FS) (t : List FPath),
      replaceFiles subs files optional fs t = Step.ok (fs', t') →
      ∀ q, (FS.read fs' q).isSome = (FS.read fs q).isSome := by
  induction files with
  | nil =>
    intro fs t h q
    simp only [replaceFiles, Step.ok.injEq, Prod.mk.injEq] at h
    rw [← h.1]
  | cons f rest ih =>
    intro fs t h q
    cases hread : FS.read fs f with
    | none => simp [replaceFiles, hread] at h
    | some c =>
      cases happ : applySubsts subs optional c with
      | error e => simp [replaceFiles, hread, happ] at h
      | ok c2 =>
        simp only [replaceFiles, hread, happ] at h
        have := ih _ _ h q
        rw [this, FS.read_write]
        by_cases hq : q = f
        · subst hq
          rw [if_pos rfl, hread]
          rfl
        · rw [if_neg hq]

theorem replaceFiles_ok_read_outside (subs : List (String × String)) (files : List FPath)
    (optional : Bool) (fs' : FS) (t' : List FPath) :
    ∀ (fs : FS) (t : List FPath),
      replaceFiles subs files optional fs t = Step.ok (fs', t') →
      ∀ q, ¬ q ∈ files → FS.read fs' q = FS.read fs q := by
  induction files with
  | nil =>
    intro fs t h q _
    simp only [replaceFiles, Step.ok.injEq, Prod.mk.injEq] at h
    rw [← h.1]
  | cons f rest ih =>
    intro fs t h q hq
    simp only [List.mem_cons, not_or] at hq
    cases hread : FS.read fs f with
    | none => simp [replaceFiles, hread] at h
    | some c =>
      cases happ : applySubsts subs optional c with
      | error e => simp [replaceFiles, hread, happ] at h
      | ok c2 =>
        simp only [replaceFiles, hread, happ] at h
        rw [ih _ _ h q hq.2, FS.read_write, if_neg hq.1]

theorem replaceFiles_ok_touched (subs : List (String × String)) (files : List FPath)
    (optional : Bool) (fs' : FS) (t' : List FPath) :
    ∀ (fs : FS) (t : List FPath),
      replaceFiles subs files optional fs t = Step.ok (fs', t') →
      t' = t ++ files := by
  induction files with
  | nil =>
    intro fs t h
    simp only [replaceFiles, Step.ok.injEq, Prod.mk.injEq] at h
    rw [← h.2]
    simp
  | cons f rest ih =>
    intro fs t h
    cases hread : FS.read fs f with
    | none => simp [replaceFiles, hread] at h
    | some c =>
      cases happ : applySubsts subs optional c with
      | error e => simp [replaceFiles, hread, happ] at h
      | ok c2 =>
        simp only [replaceFiles, hread, happ] at h
        rw [ih _ _ h]
        simp

theorem replaceFiles_ok_files_exist (subs : List (String × String)) (files : List FPath)
    (optional : Bool) (fs' : FS) (t' : List FPath) :
    ∀ (fs : FS) (t : List FPath),
      replaceFiles subs files optional fs t = Step.ok (fs', t') →
      ∀ f ∈ files, (FS.read fs f).isSome = true := by
  induction files with
  | nil => intro fs t _ f hf; cases hf
  | cons f rest ih =>
    intro fs t h g hg
    cases hread : FS.read fs f with
    | none => simp [replaceFiles, hread] at h
    | some c =>
      cases happ : applySubsts subs optional c with
      | error e => simp [replaceFiles, hread, happ] at h
      | ok c2 =>
        simp only [replaceFiles, hread, happ] at h
        rcases List.mem_cons.mp hg with rfl | hg2
        · rw [hread]; rfl
        · have := ih _ _ h g hg2
          rw [FS.read_write] at this
          by_cases hq : g = f
          · subst hq; rw [hread]; rfl
          · rw [if_neg hq] at this; exact this

theorem runBody_append (a b : List BodyStep) :
    ∀ (fs : FS) (t : List FPath),
      runBody (a ++ b) fs t =
        match runBody a fs t with
        | Step.fail e f => Step.fail e f
        | Step.ok (fs₁, t₁) => runBody b fs₁ t₁ := by
  induction a with
  | nil => intro fs t; simp [runBody]
  | cons st rest ih =>
    intro fs t
    cases st with
    | rep subs files optional =>
      simp only [List.cons_append, runBody]
      cases hr : replaceFiles subs (files fs) optional fs t with
      | fail e f => rfl
      | ok pr =>
        cases pr with
        | mk fs₁ t₁ => exact ih fs₁ t₁
    | act f =>
      simp only [List.cons_append, runBody]
      exact ih (f fs) t
    | raiseE e => simp [runBody]

theorem runBody_repShaped_isSome (steps : List BodyStep)
    (hshape : ∀ st ∈ steps, ∃ su fi op, st = BodyStep.rep su fi op) :
    ∀ (fs fs' : FS) (t t' : List FPath),
      runBody steps fs t = Step.ok (fs', t') →
      ∀ q, (FS.read fs' q).isSome = (FS.read fs q).isSome := by
  induction steps with
  | nil =>
    intro fs fs' t t' h q
    simp only [runBody, Step.ok.injEq, Prod.mk.injEq] at h
    rw [← h.1]
  | cons st rest ih =>
    intro fs fs' t t' h q
    rcases hshape st (List.mem_cons_self st rest) with ⟨su, fi, op, rfl⟩
    simp only [runBody] at h
    cases hr : replaceFiles su (fi fs) op fs t with
    | fail e f => rw [hr] at h; cases h
    | ok pr =>
      rcases pr with ⟨fs₁, t₁⟩
      rw [hr] at h
      have h1 := replaceFiles_ok_isSome su (fi fs) op fs₁ t₁ fs t hr q
      have h2 := ih (fun st hst => hshape st (List.mem_cons_of_mem _ hst)) fs₁ fs' t₁ t' h q
      rw [h2, h1]

theorem runBody_repShaped_touched (steps : List BodyStep)
    (hshape : ∀ st ∈ steps, ∃ su fi op, st = BodyStep.rep su fi op) :
    ∀ (fs fs' : FS) (t t' : List FPath),
      runBody steps fs t = Step.ok (fs', t') →
      ∀ p ∈ t', p ∈ t ∨ (FS.read fs p).isSome = true := by
  induction steps with
  | nil =>
    intro fs fs' t t' h p hp
    simp only [runBody, Step.ok.injEq, Prod.mk.injEq] at h
    rw [← h.2] at hp
    exact Or.inl hp
  | cons st rest ih =>
    intro fs fs' t t' h p hp
    rcases hshape st (List.mem_cons_self st rest) with ⟨su, fi, op, rfl⟩
    simp only [runBody] at h
    cases hr : replaceFiles su (fi fs) op fs t with
    | fail e f => rw [hr] at h; cases h
    | ok pr =>
      rcases pr with ⟨fs₁, t₁⟩
      rw [hr] at h
      rcases ih (fun st hst => hshape st (List.mem_cons_of_mem _ hst)) fs₁ fs' t₁ t' h p hp with h1 | h2
      · rw [replaceFiles_ok_touched su (fi fs) op fs₁ t₁ fs t hr] at h1
        rcases List.mem_append.mp h1 with ha | hb
        · exact Or.inl ha
        · exact Or.inr (replaceFiles_ok_files_exist su (fi fs) op fs₁ t₁ fs t hr p hb)
      · right
        rw [← replaceFiles_ok_isSome su (fi fs) op fs₁ t₁ fs t hr p]
        exact h2

theorem foldl_write_read_outside (committed : FPath → Option String)
    (paths : List FPath) :
    ∀ (fs : FS) (q : FPath), ¬ q ∈ paths →
      FS.read (paths.foldl (fun acc p => FS.write acc p ((committed p).getD "")) fs) q =
        FS.read fs q := by
  induction paths with
  | nil => intro fs q _; rfl
  | cons r rest ih =>
    intro fs q hq
    simp only [List.mem_cons, not_or] at hq
    simp only [List.foldl_cons]
    rw [ih _ q hq.2, FS.read_write, if_neg hq.1]

theorem gitCheckout_ok_read_mem (committed : FPath → Option String)
    (paths : List FPath) (fs fs' : FS)
    (h : gitCheckout committed paths fs = Step.ok fs') :
    ∀ p ∈ paths, FS.read fs' p = committed p := by
  unfold gitCheckout at h
  split at h
  · rename_i hall
    have hfs : fs' = paths.foldl (fun acc p => FS.write acc p ((committed p).getD "")) fs := by
      cases h; rfl
    subst hfs
    clear h
    induction paths generalizing fs with
    | nil => intro p hp; cases hp
    | cons r rest ih =>
      intro p hp
      simp only [List.foldl_cons]
      rcases List.mem_cons.mp hp with rfl | hrest
      · by_cases hin : p ∈ rest
        · exact ih _ (fun q hq => hall q (List.mem_cons_of_mem _ hq)) p hin
        · rw [foldl_write_read_outside committed rest _ p hin, FS.read_write, if_pos rfl]
          have := hall p (List.mem_cons_self p rest)
          cases hc : committed p with
          | none => rw [hc] at this; cases this
          | some v => rfl
      · exact ih _ (fun q hq => hall q (List.mem_cons_of_mem _ hq)) p hrest
  · cases h

theorem gitCheckout_ok_read_outside (committed : FPath → Option String)
    (paths : List FPath) (fs fs' : FS)
    (h : gitCheckout committed paths fs = Step.ok fs')
    (q : FPath) (hq : ¬ q ∈ paths) :
    FS.read fs' q = FS.read fs q := by
  unfold gitCheckout at h
  split at h
  · have hfs : fs' = paths.foldl (fun acc p => FS.write acc p ((committed p).getD "")) fs := by
      cases h; rfl
    subst hfs
    exact foldl_write_read_outside committed paths fs q hq
  · cases h

/-! ### Claims about the reversible patcher -/

/-- Claim C7, counterexample: with auto-revert enabled, a body that raises
after a successful replace call exits the context exceptionally with the
touched file still patched, not byte-identical to its committed content:
the context manager's generator has no try/finally around its yield, so
the revert checkout never runs on an exceptional exit. -/
theorem claim_C7_counterexample :
    withReplacer c7committed true c7stepsRaise c7fs =
      Step.fail "RuntimeError" [(["f.txt"], "b")] ∧
    ¬ (FS.read [((["f.txt"] : FPath), "b")] ["f.txt"] = c7committed ["f.txt"]) := by
  constructor
  · rfl
  · decide

/-- Claim C7, amended: when the `Replacer` context with auto-revert exits
NORMALLY, every file recorded in `to_restore` by the replace calls of the
body reads back as its committed content; on an exceptional exit the
revert is skipped (see the counterexample). -/
theorem claim_C7_amended (committed : FPath → Option String) (steps : List BodyStep)
    (fs fs₁ fs' : FS) (touched : List FPath)
    (hrun : runBody steps fs [] = Step.ok (fs₁, touched))
    (hok : withReplacer committed true steps fs = Step.ok fs')
    (p : FPath) (hp : p ∈ touched) :
    FS.read fs' p = committed p := by
  unfold withReplacer at hok
  rw [hrun] at hok
  simp only [if_pos] at hok
  exact gitCheckout_ok_read_mem committed touched fs₁ fs' hok p hp

/-- Concrete instance of the amended C7 statement. -/
theorem claim_C7_witness :
    FS.read [((["f.txt"] : FPath), "a")] ["f.txt"] = c7committed ["f.txt"] :=
  claim_C7_amended c7committed c7stepsOk c7fs [(["f.txt"], "b")] [(["f.txt"], "a")]
    [["f.txt"]] rfl rfl ["f.txt"] (by decide)

/-- Claim C8: in a mandatory (non-optional) replace, each substitution of
the chain must match at least once in each file: a file's substitution
chain succeeds exactly when every match count is positive, and a file
whose chain contains a zero count makes the whole replace call abort at
that file. -/
theorem claim_C8 (subs : List (String × String)) :
    (∀ content, (∃ c, applySubsts subs false content = Except.ok c) ↔
        (mandatoryCounts subs content).all (fun n => decide (0 < n)) = true) ∧
    (∀ (f : FPath) (rest : List FPath) (fs : FS) (t : List FPath) (c : String),
      FS.read fs f = some c →
      ¬ ((mandatoryCounts subs c).all (fun n => decide (0 < n)) = true) →
      ∃ e, replaceFiles subs (f :: rest) false fs t = Step.fail e fs) := by
  constructor
  · intro content
    exact applySubsts_ok_iff subs content
  · intro f rest fs t c hread hbad
    cases happ : applySubsts subs false c with
    | ok c2 => exact absurd ((applySubsts_ok_iff subs c).mp ⟨c2, happ⟩) hbad
    | error e =>
      refine ⟨e, ?_⟩
      simp [replaceFiles, hread, happ]

/-- Concrete instance of C8: a pattern matching nowhere aborts the call. -/
theorem claim_C8_witness :
    ∃ e, replaceFiles [("x", "y")] ([["a.txt"]] : List FPath) false
      [(["a.txt"], "zzz")] [] = Step.fail e [(["a.txt"], "zzz")] :=
  (claim_C8 [("x", "y")]).2 ["a.txt"] [] [(["a.txt"], "zzz")] [] "zzz"
    rfl (by decide)

/-- Claim C10: a file's content is written back only after every
substitution has been applied and its mandatory-match assertion has
passed; when the chain aborts on a file, the call fails with the
filesystem exactly as it was before that file was processed — in
particular that file's content is unchanged. -/
theorem claim_C10 (subs : List (String × String)) (optional : Bool)
    (f : FPath) (rest : List FPath) (fs : FS) (t : List FPath)
    (c c2 e : String) :
    (FS.read fs f = some c → applySubsts subs optional c = Except.error e →
      replaceFiles subs (f :: rest) optional fs t = Step.fail e fs) ∧
    (FS.read fs f = some c → applySubsts subs optional c = Except.ok c2 →
      replaceFiles subs (f :: rest) optional fs t =
        replaceFiles subs rest optional (FS.write fs f c2) (t ++ [f])) := by
  constructor
  · intro hread happ
    simp [replaceFiles, hread, happ]
  · intro hread happ
    simp [replaceFiles, hread, happ]

/-- Concrete instance of C10: the aborting call leaves the file's
original content on disk. -/
theorem claim_C10_witness :
    replaceFiles [("x", "y")] ([["a.txt"]] : List FPath) false
      [(["a.txt"], "zzz")] [] =
      Step.fail "AssertionError: optional or num_subs" [(["a.txt"], "zzz")] :=
  (claim_C10 [("x", "y")] false ["a.txt"] [] [(["a.txt"], "zzz")] [] "zzz" ""
    "AssertionError: optional or num_subs").1 rfl rfl

/-! ### Inventory and collection helpers -/

theorem mem_dedupFirstAux {α : Type} [DecidableEq α] (l : List α) :
    ∀ (seen : List α) (x : α), x ∈ dedupFirstAux seen l ↔ (¬ x ∈ seen ∧ x ∈ l) := by
  induction l with
  | nil => intro seen x; simp [dedupFirstAux]
  | cons y ys ih =>
    intro seen x
    simp only [dedupFirstAux]
    by_cases hy : y ∈ seen
    · rw [if_pos hy, ih]
      simp only [List.mem_cons]
      constructor
      · rintro ⟨hxs, hxl⟩; exact ⟨hxs, Or.inr hxl⟩
      · rintro ⟨hxs, rfl | hxl⟩
        · exact absurd hy hxs
        · exact ⟨hxs, hxl⟩
    · rw [if_neg hy]
      simp only [List.mem_cons, ih]
      constructor
      · rintro (rfl | ⟨hxs, hxl⟩)
        · exact ⟨hy, Or.inl rfl⟩
        · simp only [List.mem_append, List.mem_singleton, not_or] at hxs
          exact ⟨hxs.1, Or.inr hxl⟩
      · rintro ⟨hxs, rfl | hxl⟩
        · exact Or.inl rfl
        · by_cases hxy : x = y
          · exact Or.inl hxy
          · refine Or.inr ⟨?_, hxl⟩
            simp only [List.mem_append, List.mem_singleton, not_or]
            exact ⟨hxs, hxy⟩

theorem mem_dedupFirst {α : Type} [DecidableEq α] (l : List α) (x : α) :
    x ∈ dedupFirst l ↔ x ∈ l := by
  unfold dedupFirst
  rw [mem_dedupFirstAux]
  simp

theorem nodup_dedupFirstAux {α : Type} [DecidableEq α] (l : List α) :
    ∀ (seen : List α), (dedupFirstAux seen l).Nodup := by
  induction l with
  | nil => intro seen; simp [dedupFirstAux]
  | cons y ys ih =>
    intro seen
    simp only [dedupFirstAux]
    by_cases hy : y ∈ seen
    · rw [if_pos hy]; exact ih seen
    · rw [if_neg hy]
      refine List.Nodup.cons ?_ (ih (seen ++ [y]))
      rw [mem_dedupFirstAux]
      rintro ⟨hns, _⟩
      exact hns (by simp)

theorem nodup_dedupFirst {α : Type} [DecidableEq α] (l : List α) :
    (dedupFirst l).Nodup :=
  nodup_dedupFirstAux l []

theorem list_migrations_ok_shape (fs : FS) (cur : List (String × List String))
    (heads : List (String × String))
    (h : list_migrations fs = Step.ok (cur, heads)) :
    cur = (migrationApps fs).map (fun a => (a, migrationStems fs a)) ∧
    heads = (migrationApps fs).map
      (fun a => (a, pyStrip ((FS.read fs (get_max_migration_path a)).getD ""))) := by
  unfold list_migrations at h
  split at h
  · cases h; exact ⟨rfl, rfl⟩
  · cases h

theorem list_migrations_ok_mem (fs : FS) (cur : List (String × List String))
    (heads : List (String × String)) (app : String) (migs : List String)
    (h : list_migrations fs = Step.ok (cur, heads))
    (hmem : (app, migs) ∈ cur) :
    app ∈ migrationApps fs ∧ migs = migrationStems fs app := by
  rcases list_migrations_ok_shape fs cur heads h with ⟨hc, _⟩
  rw [hc] at hmem
  rcases List.mem_map.mp hmem with ⟨a, ha, heq⟩
  injection heq with h1 h2
  subst h1
  exact ⟨ha, h2.symm⟩

theorem list_migrations_ok_heads_mem (fs : FS) (cur : List (String × List String))
    (heads : List (String × String)) (app oh : String)
    (h : list_migrations fs = Step.ok (cur, heads))
    (hmem : (app, oh) ∈ heads) :
    app ∈ migrationApps fs ∧
    oh = pyStrip ((FS.read fs (get_max_migration_path app)).getD "") := by
  rcases list_migrations_ok_shape fs cur heads h with ⟨_, hh⟩
  rw [hh] at hmem
  rcases List.mem_map.mp hmem with ⟨a, ha, heq⟩
  injection heq with h1 h2
  subst h1
  exact ⟨ha, h2.symm⟩

theorem mem_foldl_append_collect {β : Type} (g : (String × List String) → List β)
    (cur : List (String × List String)) :
    ∀ (init : List β) (x : β),
      x ∈ cur.foldl (fun acc pr => acc ++ g pr) init ↔
        (x ∈ init ∨ ∃ pr ∈ cur, x ∈ g pr) := by
  induction cur with
  | nil => intro init x; simp
  | cons pr rest ih =>
    intro init x
    simp only [List.foldl_cons]
    rw [ih]
    simp only [List.mem_append, List.mem_cons]
    constructor
    · rintro ((h1 | h2) | ⟨q, hq, hx⟩)
      · exact Or.inl h1
      · exact Or.inr ⟨pr, Or.inl rfl, h2⟩
      · exact Or.inr ⟨q, Or.inr hq, hx⟩
    · rintro (h1 | ⟨q, rfl | hq, hx⟩)
      · exact Or.inl (Or.inl h1)
      · exact Or.inl (Or.inr hx)
      · exact Or.inr ⟨q, hq, hx⟩

/-! ### Claims about the precondition checks -/

/-- Claim C5: when some application has fewer than two migrations, the run
stops at the first check: it returns through the insufficient-migrations
early return with the filesystem exactly as it was, having only printed
guidance. -/
theorem claim_C5 (E : Env) (fs0 : FS) (cur : List (String × List String))
    (heads1 : List (String × String)) (app : String) (migs : List String)
    (hlist : list_migrations fs0 = Step.ok (cur, heads1))
    (hmem : (app, migs) ∈ cur) (hshort : migs.length < 2) :
    crush_migrations E fs0 =
      Step.ok (Outcome.insufficient, fs0, insufficientLog cur) := by
  unfold crush_migrations
  rw [hlist]
  have hany : cur.any (fun pr => decide (pr.2.length < 2)) = true := by
    rw [List.any_eq_true]
    exact ⟨(app, migs), hmem, by simpa using hshort⟩
  simp [hany]

/-- Concrete instance of C5 on a one-migration application. -/
theorem claim_C5_witness :
    crush_migrations scEnv scFS5 =
      Step.ok (Outcome.insufficient, scFS5,
        insufficientLog [("beta", ["0001_only"])]) :=
  claim_C5 scEnv scFS5 [("beta", ["0001_only"])] [("beta", "0001_only")]
    "beta" ["0001_only"] rfl (by decide) (by decide)

/-- Claim C6: when some existing migration module declares replacements,
the run stops at the second check: the filesystem is untouched, the early
return for existing squashes is taken, and the printed guidance contains
the remedial delete_squashed_migrations command for the offending
application. -/
theorem claim_C6 (E : Env) (fs0 : FS) (cur : List (String × List String))
    (heads1 : List (String × String)) (app m c : String) (migs : List String)
    (hlist : list_migrations fs0 = Step.ok (cur, heads1))
    (hnoshort : cur.any (fun pr => decide (pr.2.length < 2)) = false)
    (hmem : (app, migs) ∈ cur) (hm : m ∈ migs)
    (hc : FS.read fs0 (get_migration_path app m "py") = some c)
    (hrep : E.hasReplaces c = true) :
    ∃ hits, findSquashes E.hasReplaces fs0 cur = Step.ok hits ∧
      (app, m) ∈ hits ∧
      crush_migrations E fs0 =
        Step.ok (Outcome.existingSquashes, fs0, squashLog hits) ∧
      ("python manage.py delete_squashed_migrations " ++ app ++ " --noinput")
        ∈ squashLog hits := by
  have hall : cur.all
      (fun pr => pr.2.all
        (fun m2 => (FS.read fs0 (get_migration_path pr.1 m2 "py")).isSome)) = true := by
    rw [List.all_eq_true]
    intro pr hpr
    rw [List.all_eq_true]
    intro m2 hm2
    rcases list_migrations_ok_mem fs0 cur heads1 pr.1 pr.2 hlist
      (by rwa [show (pr.1, pr.2) = pr from rfl]) with ⟨_, hstems⟩
    rw [hstems] at hm2
    have := (mem_migrationStems fs0 pr.1 m2).mp hm2
    simpa using this.2
  have hfind : findSquashes E.hasReplaces fs0 cur =
      Step.ok (cur.foldl (fun acc pr =>
        acc ++ (pr.2.filter (fun m2 =>
          E.hasReplaces ((FS.read fs0 (get_migration_path pr.1 m2 "py")).getD ""))).map
            (fun m2 => (pr.1, m2))) []) := by
    unfold findSquashes
    rw [if_pos hall]
  refine ⟨_, hfind, ?_, ?_, ?_⟩
  · rw [mem_foldl_append_collect]
    right
    refine ⟨(app, migs), hmem, ?_⟩
    rw [List.mem_map]
    refine ⟨m, ?_, rfl⟩
    rw [List.mem_filter]
    refine ⟨hm, ?_⟩
    rw [hc]
    simpa using hrep
  · unfold crush_migrations
    rw [hlist]
    have hne : ¬ (cur.foldl (fun acc pr =>
        acc ++ (pr.2.filter (fun m2 =>
          E.hasReplaces ((FS.read fs0 (get_migration_path pr.1 m2 "py")).getD ""))).map
            (fun m2 => (pr.1, m2))) []) = [] := by
      intro hempty
      have : (app, m) ∈ (cur.foldl (fun acc pr =>
        acc ++ (pr.2.filter (fun m2 =>
          E.hasReplaces ((FS.read fs0 (get_migration_path pr.1 m2 "py")).getD ""))).map
            (fun m2 => (pr.1, m2))) ([] : List (String × String))) := by
        rw [mem_foldl_append_collect]
        right
        refine ⟨(app, migs), hmem, ?_⟩
        rw [List.mem_map]
        refine ⟨m, ?_, rfl⟩
        rw [List.mem_filter]
        refine ⟨hm, ?_⟩
        rw [hc]
        simpa using hrep
      rw [hempty] at this
      cases this
    simp [hnoshort, hfind, hne]
  · unfold squashLog
    simp only [List.mem_append]
    left; left; left; right
    rw [List.mem_map]
    refine ⟨app, ?_, rfl⟩
    rw [mem_sortStrings, mem_dedupFirst, List.mem_map]
    refine ⟨(app, m), ?_, rfl⟩
    rw [mem_foldl_append_collect]
    right
    refine ⟨(app, migs), hmem, ?_⟩
    rw [List.mem_map]
    refine ⟨m, ?_, rfl⟩
    rw [List.mem_filter]
    refine ⟨hm, ?_⟩
    rw [hc]
    simpa using hrep

/-- Concrete instance of C6 on an application with an existing squash. -/
theorem claim_C6_witness :
    ∃ hits, findSquashes scEnv.hasReplaces scFS6
        [("gamma", ["0001_a", "0002_sq"])] = Step.ok hits ∧
      ("gamma", "0002_sq") ∈ hits ∧
      crush_migrations scEnv scFS6 =
        Step.ok (Outcome.existingSquashes, scFS6, squashLog hits) ∧
      ("python manage.py delete_squashed_migrations " ++ "gamma" ++ " --noinput")
        ∈ squashLog hits :=
  claim_C6 scEnv scFS6 [("gamma", ["0001_a", "0002_sq"])] [("gamma", "0002_sq")]
    "gamma" "0002_sq" "REPLACES marker" ["0001_a", "0002_sq"]
    rfl (by decide) (by decide) (by decide) rfl (by decide)

/-! ### Behaviour of `re.subn` around occurrences -/

theorem occursIn_cons (pat : List Char) (c : Char) (rest : List Char) :
    occursIn pat (c :: rest) = (pat.isPrefixOf (c :: rest) || occursIn pat rest) := by
  simp [occursIn, List.tails]

theorem subnChars_no_occur (pat rep : List Char) :
    ∀ (fuel : Nat) (s : List Char), occursIn pat s = false →
      subnChars pat rep fuel s = (s, 0) := by
  intro fuel s
  induction s generalizing fuel with
  | nil => intro _; cases fuel <;> rfl
  | cons c rest ih =>
    intro hocc
    rw [occursIn_cons, Bool.or_eq_false_iff] at hocc
    cases fuel with
    | zero => rfl
    | succ f =>
      simp only [subnChars]
      rw [if_neg (by
        rintro ⟨_, hpre⟩
        rw [hocc.1] at hpre
        cases hpre)]
      rw [ih f hocc.2]

theorem subnChars_single (pat rep : List Char) (hpat : ¬ pat = [])
    (post : List Char) (hpost : occursIn pat post = false) :
    ∀ (pre : List Char) (fuel : Nat),
      (pre ++ pat ++ post).length ≤ fuel →
      noMatchBefore pat (pre ++ pat ++ post) pre.length →
      subnChars pat rep fuel (pre ++ pat ++ post) = (pre ++ rep ++ post, 1) := by
  intro pre
  induction pre with
  | nil =>
    intro fuel hfuel _
    cases fuel with
    | zero =>
      exfalso
      simp only [List.nil_append, List.length_append] at hfuel
      cases hp : pat with
      | nil => exact hpat hp
      | cons a l => rw [hp] at hfuel; simp at hfuel
    | succ f =>
      cases hp : pat with
      | nil => exact absurd hp hpat
      | cons a l =>
        subst hp
        simp only [List.nil_append, List.cons_append, List.append_eq, subnChars]
        rw [if_pos ⟨by simp, by
          rw [List.isPrefixOf_iff_prefix]
          refine ⟨post, ?_⟩
          rw [List.cons_append]⟩]
        rw [show (List.drop (a :: l).length (a :: (l ++ post))) = post from by
          rw [← List.cons_append]
          exact List.drop_left (a :: l) post]
        rw [subnChars_no_occur (a :: l) rep f post hpost]
  | cons a pre' ih =>
    intro fuel hfuel hnm
    cases fuel with
    | zero =>
      exfalso
      simp at hfuel
    | succ f =>
      simp only [List.cons_append, List.append_eq, subnChars]
      rw [if_neg (by
        rintro ⟨_, hpre⟩
        have h0 := hnm 0 (by simp)
        rw [List.drop_zero] at h0
        simp only [List.cons_append] at h0
        exact h0 hpre)]
      have hih := ih f (by
          simp only [List.cons_append, List.length_cons] at hfuel
          simpa using Nat.le_of_succ_le_succ hfuel)
        (by
          intro i hi
          have := hnm (i + 1) (by simpa using Nat.succ_lt_succ hi)
          simpa using this)
      rw [hih]

theorem subnLit_no_occur (pat rep s : String)
    (h : occursIn pat.data s.data = false) :
    subnLit pat rep s = (s, 0) := by
  unfold subnLit
  rw [subnChars_no_occur pat.data rep.data s.data.length s.data h]

theorem subnLit_single (pat rep pre post : String) (hpat : ¬ pat.data = [])
    (hpre : noMatchBefore pat.data (pre.data ++ pat.data ++ post.data) pre.data.length)
    (hpost : occursIn pat.data post.data = false) :
    subnLit pat rep (pre ++ pat ++ post) = (pre ++ rep ++ post, 1) := by
  unfold subnLit
  have hd : (pre ++ pat ++ post).data = pre.data ++ pat.data ++ post.data := by
    rw [String.data_append, String.data_append]
  rw [hd]
  rw [subnChars_single pat.data rep.data hpat post.data hpost pre.data _
    (Nat.le_refl _) hpre]
  have hmk : String.mk (pre.data ++ rep.data ++ post.data) = pre ++ rep ++ post := by
    apply String.ext
    rw [String.data_append, String.data_append]
  dsimp only
  rw [hmk]

/-! ### Claims about the dependency rewrite -/

theorem dep_entry_matched_ne_nil (app m : String) :
    ¬ (dep_entry_matched app m).data = [] := by
  unfold dep_entry_matched
  rw [String.data_append, String.data_append, String.data_append]
  simp

/-- Claim C2, counterexample: in the dependency-rewrite step the tuple
pattern is interpreted by `re` with its parentheses as a capturing group,
so only the inner text is matched while the replacement inserts a fully
parenthesised entry.  On a dependencies list the result is
`((".."))` — not the text the claim predicts, where the tuple would be
replaced in place with no other characters affected. -/
theorem claim_C2_counterexample :
    buildDepSubsts c2inv2 c2fs =
      Step.ok [("\"alpha\", \"0002_sq\"", "(\"alpha\", \"0001_init\")")] ∧
    withReplacer scCommitted false
      (rewriteSteps c2inv2
        [("\"alpha\", \"0002_sq\"", "(\"alpha\", \"0001_init\")")]) c2fs =
      Step.ok
        [(["alpha", "migrations", "0001_init.py"], "# i"),
         (["alpha", "migrations", "0002_sq.py"],
          "deps = [((\"alpha\", \"0001_init\"))]\n")] ∧
    ¬ ("deps = [((\"alpha\", \"0001_init\"))]\n" =
       "deps = [(\"alpha\", \"0001_init\")]\n") := by
  refine ⟨rfl, rfl, by decide⟩

/-- Claim C2, amended: the dependency rewrite builds, for every
application, the substitution whose matched text is the parenthesis-free
core `"app", "squash"` (the pattern's parentheses are a regex group) and
whose replacement is the full initial entry `("app", "initial")`; applying
it replaces each occurrence of that core — in a dependency tuple the
original parentheses survive around the inserted entry — and leaves any
text without the core unchanged. -/
theorem claim_C2_amended (app sqM initM : String) :
    (∀ (inv2 : List (String × List String)) (fs : FS)
        (subs : List (String × String)),
      buildDepSubsts inv2 fs = Step.ok subs → (app, [initM, sqM]) ∈ inv2 →
      (dep_entry_matched app sqM, get_dep_entry app initM) ∈ subs) ∧
    (∀ pre post : String,
      noMatchBefore (dep_entry_matched app sqM).data
        (pre.data ++ (dep_entry_matched app sqM).data ++ post.data)
        pre.data.length →
      occursIn (dep_entry_matched app sqM).data post.data = false →
      subnLit (dep_entry_matched app sqM) (get_dep_entry app initM)
          (pre ++ dep_entry_matched app sqM ++ post) =
        (pre ++ get_dep_entry app initM ++ post, 1)) ∧
    (∀ s : String, occursIn (dep_entry_matched app sqM).data s.data = false →
      subnLit (dep_entry_matched app sqM) (get_dep_entry app initM) s = (s, 0)) := by
  refine ⟨?_, ?_, ?_⟩
  · intro inv2 fs subs hok hmem
    unfold buildDepSubsts at hok
    split at hok
    · have hsubs : subs = inv2.map (fun pr =>
          (dep_entry_matched pr.1 (pr.2.getD 1 ""),
           get_dep_entry pr.1 (pr.2.headD ""))) := by
        cases hok; rfl
      rw [hsubs, List.mem_map]
      exact ⟨(app, [initM, sqM]), hmem, rfl⟩
    · cases hok
  · intro pre post hpre hpost
    exact subnLit_single _ _ pre post (dep_entry_matched_ne_nil app sqM) hpre hpost
  · intro s hs
    exact subnLit_no_occur _ _ s hs

/-- Concrete instance of the amended C2 statement: the substitution built
for the fixture, a single rewrite inside a dependencies list that keeps
the surrounding parentheses, and an untouched unrelated content. -/
theorem claim_C2_witness :
    (dep_entry_matched "alpha" "0002_sq", get_dep_entry "alpha" "0001_init") ∈
      [("\"alpha\", \"0002_sq\"", "(\"alpha\", \"0001_init\")")] ∧
    subnLit (dep_entry_matched "alpha" "0002_sq") (get_dep_entry "alpha" "0001_init")
        ("deps = [(" ++ dep_entry_matched "alpha" "0002_sq" ++ ")]\n") =
      ("deps = [(" ++ get_dep_entry "alpha" "0001_init" ++ ")]\n", 1) ∧
    subnLit (dep_entry_matched "alpha" "0002_sq") (get_dep_entry "alpha" "0001_init")
        "# i" = ("# i", 0) := by
  refine ⟨?_, ?_, ?_⟩
  · exact (claim_C2_amended "alpha" "0002_sq" "0001_init").1 c2inv2 c2fs _ rfl
      (by decide)
  · exact (claim_C2_amended "alpha" "0002_sq" "0001_init").2.1 "deps = [(" ")]\n"
      (by decide) (by decide)
  · exact (claim_C2_amended "alpha" "0002_sq" "0001_init").2.2 "# i" (by decide)

/-! ### Claim about the replaces annotation -/

theorem splitChars_ne_nil (sep : Char) (l : List Char) :
    ¬ splitChars sep l = [] := by
  cases l with
  | nil => simp [splitChars]
  | cons c rest =>
    simp only [splitChars]
    cases h : splitChars sep rest with
    | nil => simp
    | cons a t =>
      by_cases hc : c = sep
      · simp [hc]
      · simp [hc]

theorem splitChars_no_sep (sep : Char) (x : List Char) (hx : ¬ sep ∈ x) :
    splitChars sep x = [x] := by
  induction x with
  | nil => rfl
  | cons c rest ih =>
    simp only [List.mem_cons, not_or] at hx
    simp only [splitChars]
    rw [ih hx.2]
    dsimp only
    rw [if_neg (fun h => hx.1 h.symm)]

theorem splitChars_append_sep (sep : Char) (y : List Char) :
    ∀ (x : List Char), ¬ sep ∈ x →
      splitChars sep (x ++ sep :: y) = x :: splitChars sep y := by
  intro x
  induction x with
  | nil =>
    intro _
    simp only [List.nil_append, splitChars]
    cases h : splitChars sep y with
    | nil => exact absurd h (splitChars_ne_nil sep y)
    | cons a t => simp
  | cons c rest ih =>
    intro hx
    simp only [List.mem_cons, not_or] at hx
    simp only [List.cons_append, List.append_eq, splitChars]
    rw [ih hx.2]
    dsimp only
    rw [if_neg (fun h => hx.1 h.symm)]

theorem findSquashPath_shape (fs : FS) (a sq : String) (q : FPath)
    (h : findSquashPath fs a sq = some q) :
    ∃ f, q = [a, "migrations", f] := by
  unfold findSquashPath at h
  cases hf : fs.find? (fun e =>
    match e.1 with
    | [a2, m, f] => a2 = a ∧ m = "migrations" ∧ pyEndswith f ("_" ++ sq ++ ".py") = true
    | _ => false) with
  | none => rw [hf] at h; cases h
  | some e =>
    rw [hf] at h
    have hq : e.1 = q := by simpa using h
    have hpred := List.find?_some hf
    rcases hp : e.1 with _ | ⟨a2, tl⟩
    · rw [hp] at hpred; simp at hpred
    rcases tl with _ | ⟨m, tl2⟩
    · rw [hp] at hpred; simp at hpred
    rcases tl2 with _ | ⟨f, tl3⟩
    · rw [hp] at hpred; simp at hpred
    rcases tl3 with _ | _
    · rw [hp] at hpred
      simp only [decide_eq_true_eq] at hpred
      rcases hpred with ⟨ha, hm, _⟩
      refine ⟨f, ?_⟩
      rw [← hq, hp, ha, hm]
    · rw [hp] at hpred; simp at hpred

theorem appendFold_frame (squashName : String) (fs : FS) (app f0 : String) :
    ∀ (l : List (String × List String)) (acc : FS),
      (∀ pr ∈ l, ¬ pr.1 = app) →
      FS.read (l.foldl (fun acc2 pr =>
        FS.write acc2 ((findSquashPath fs pr.1 squashName).getD [])
          ((FS.read acc2 ((findSquashPath fs pr.1 squashName).getD [])).getD ""
            ++ replacesBlock pr.1 pr.2)) acc)
        [app, "migrations", f0] =
      FS.read acc [app, "migrations", f0] := by
  intro l
  induction l with
  | nil => intro acc _; rfl
  | cons pr rest ih =>
    intro acc hne
    simp only [List.foldl_cons]
    rw [ih _ (fun q hq => hne q (List.mem_cons_of_mem _ hq))]
    rw [FS.read_write]
    rw [if_neg ?_]
    cases hf : findSquashPath fs pr.1 squashName with
    | none =>
      simp only [hf, Option.getD_none]
      intro hcontra
      cases hcontra
    | some q =>
      simp only [hf, Option.getD_some]
      rcases findSquashPath_shape fs pr.1 squashName q hf with ⟨f, rfl⟩
      intro hcontra
      injection hcontra with h1 _
      exact hne pr (List.mem_cons_self pr rest) h1.symm

theorem data_eq_mk (s : String) : String.mk s.data = s := rfl

theorem nl_not_mem_dep_entry (app m : String)
    (happ : ¬ Char.ofNat 10 ∈ app.data) (hm : ¬ Char.ofNat 10 ∈ m.data) :
    ¬ Char.ofNat 10 ∈ (get_dep_entry app m).data := by
  unfold get_dep_entry
  intro h
  simp only [String.data_append, List.mem_append] at h
  rcases h with ((((h1 | h2) | h3) | h4) | h5)
  · revert h1; decide
  · exact happ h2
  · revert h3; decide
  · exact hm h4
  · revert h5; decide

theorem splitChars_replacesLines (app : String)
    (happ : ¬ Char.ofNat 10 ∈ app.data) :
    ∀ ls : List String, (∀ m ∈ ls, ¬ Char.ofNat 10 ∈ m.data) →
      splitChars (Char.ofNat 10)
          ((replacesLines app ls).data ++ ("    ]\n").data) =
        (ls.map (fun m => ("        " ++ get_dep_entry app m ++ ",").data)) ++
          [("    ]").data, ([] : List Char)] := by
  intro ls
  induction ls with
  | nil =>
    intro _
    show splitChars (Char.ofNat 10) (("" : String).data ++ ("    ]\n").data) =
      [("    ]" : String).data, ([] : List Char)]
    decide
  | cons m rest ih =>
    intro hnm
    have hline : ((replacesLines app (m :: rest)).data ++ ("    ]\n").data) =
        ("        " ++ get_dep_entry app m ++ ",").data ++
          (Char.ofNat 10) :: ((replacesLines app rest).data ++ ("    ]\n").data) := by
      show (("        " ++ get_dep_entry app m ++ ",\n" ++ replacesLines app rest).data
          ++ ("    ]\n").data) = _
      rw [String.data_append, String.data_append, String.data_append,
        String.data_append, String.data_append]
      rw [show (",\n" : String).data = (("," : String).data) ++ [Char.ofNat 10] from by decide]
      simp [List.append_assoc]
    rw [hline]
    rw [splitChars_append_sep _ _ _ ?_]
    · rw [ih (fun q hq => hnm q (List.mem_cons_of_mem _ hq))]
      simp
    · rw [String.data_append, String.data_append]
      simp only [List.mem_append]
      rintro ((h1 | h2) | h3)
      · revert h1; decide
      · exact nl_not_mem_dep_entry app m happ (hnm m (List.mem_cons_self m rest)) h2
      · revert h3; decide

theorem strLines_replacesBlock (app : String) (migs : List String)
    (happ : ¬ Char.ofNat 10 ∈ app.data)
    (hmigs : ∀ m ∈ migs.drop 1, ¬ Char.ofNat 10 ∈ m.data) :
    strLines (replacesBlock app migs) =
      "    replaces = [" ::
        ((migs.drop 1).map (fun m => "        " ++ get_dep_entry app m ++ ",")) ++
        ["    ]", ""] := by
  unfold strLines replacesBlock
  have hdecomp : ("    replaces = [\n" ++ replacesLines app (migs.drop 1) ++ "    ]\n").data =
      ("    replaces = [" : String).data ++
        (Char.ofNat 10) :: ((replacesLines app (migs.drop 1)).data ++ ("    ]\n").data) := by
    rw [String.data_append, String.data_append]
    rw [show ("    replaces = [\n" : String).data =
      ("    replaces = [" : String).data ++ [Char.ofNat 10] from by decide]
    simp [List.append_assoc]
  rw [hdecomp]
  rw [splitChars_append_sep _ _ _ (by decide)]
  rw [splitChars_replacesLines app happ (migs.drop 1) hmigs]
  simp only [List.map_cons, List.map_append, List.map_map, data_eq_mk]
  have hfun : (String.mk ∘ fun m => ("        " ++ get_dep_entry app m ++ ",").data) =
      (fun m => "        " ++ get_dep_entry app m ++ ",") := by
    funext m
    exact data_eq_mk _
  rw [hfun]
  simp [show String.mk [] = "" from rfl, data_eq_mk]

/-- Claim C3: the `replaces` declaration appended to an application's
squash migration is added to the end of the found squash file and lists
exactly the application's original migrations minus the first, in the
original order, one dependency entry per line. -/
theorem claim_C3 (squashName : String) (cur : List (String × List String))
    (fs fs' : FS) (app : String) (migs : List String) (p : FPath) (c : String)
    (hnodup : (cur.map (fun pr => pr.1)).Nodup)
    (hok : appendReplacesAll squashName cur fs = Step.ok fs')
    (hmem : (app, migs) ∈ cur)
    (hfind : findSquashPath fs app squashName = some p)
    (hc : FS.read fs p = some c)
    (happ : ¬ Char.ofNat 10 ∈ app.data)
    (hmigs : ∀ m ∈ migs.drop 1, ¬ Char.ofNat 10 ∈ m.data) :
    FS.read fs' p = some (c ++ replacesBlock app migs) ∧
    strLines (replacesBlock app migs) =
      "    replaces = [" ::
        ((migs.drop 1).map (fun m => "        " ++ get_dep_entry app m ++ ",")) ++
        ["    ]", ""] := by
  refine ⟨?_, strLines_replacesBlock app migs happ hmigs⟩
  unfold appendReplacesAll at hok
  split at hok
  · have hfs : fs' = cur.foldl (fun acc pr =>
        FS.write acc ((findSquashPath fs pr.1 squashName).getD [])
          ((FS.read acc ((findSquashPath fs pr.1 squashName).getD [])).getD ""
            ++ replacesBlock pr.1 pr.2)) fs := by
      cases hok; rfl
    subst hfs
    rcases List.append_of_mem hmem with ⟨l1, l2, rfl⟩
    have hkeys := hnodup
    rw [List.map_append, List.map_cons] at hkeys
    rcases List.nodup_append.mp hkeys with ⟨_, hn2, hdisj⟩
    have hno1 : ∀ pr ∈ l1, ¬ pr.1 = app := by
      intro pr hpr hcontra
      exact hdisj (List.mem_map_of_mem _ hpr) (by simp [hcontra])
    have hno2 : ∀ pr ∈ l2, ¬ pr.1 = app := by
      intro pr hpr hcontra
      rcases List.nodup_cons.mp hn2 with ⟨hnotin, _⟩
      exact hnotin (by simpa [hcontra] using List.mem_map_of_mem (fun pr => pr.1) hpr)
    rcases findSquashPath_shape fs app squashName p hfind with ⟨f0, rfl⟩
    rw [List.foldl_append, List.foldl_cons]
    rw [appendFold_frame squashName fs app f0 l2 _ hno2]
    simp only [hfind, Option.getD_some]
    rw [FS.read_write, if_pos rfl]
    rw [appendFold_frame squashName fs app f0 l1 fs hno1, hc]
    rfl
  · cases hok

/-- Concrete instance of C3. -/
theorem claim_C3_witness :
    FS.read [((["alpha", "migrations", "0002_sq20.py"] : FPath),
        "content" ++ replacesBlock "alpha" ["0001_a", "0002_b", "0003_c"])]
      ["alpha", "migrations", "0002_sq20.py"] =
      some ("content" ++ replacesBlock "alpha" ["0001_a", "0002_b", "0003_c"]) ∧
    strLines (replacesBlock "alpha" ["0001_a", "0002_b", "0003_c"]) =
      "    replaces = [" ::
        ((["0001_a", "0002_b", "0003_c"].drop 1).map
          (fun m => "        " ++ get_dep_entry "alpha" m ++ ",")) ++
        ["    ]", ""] :=
  claim_C3 "sq20" c3cur c3fs
    [((["alpha", "migrations", "0002_sq20.py"] : FPath),
        "content" ++ replacesBlock "alpha" ["0001_a", "0002_b", "0003_c"])]
    "alpha" ["0001_a", "0002_b", "0003_c"]
    ["alpha", "migrations", "0002_sq20.py"] "content"
    (by decide) rfl (by decide) rfl rfl (by decide) (by decide)

/-! ### Path and name disambiguation lemmas -/

theorem ext_py_ne_maxtxt (s : String) : ¬ (s ++ "." ++ "py" = "max_migration.txt") := by
  intro h
  have hd : ((s ++ "." ++ "py").data).reverse.head? =
      (("max_migration.txt" : String).data).reverse.head? := by rw [h]
  rw [String.data_append, String.data_append, List.reverse_append] at hd
  rw [show ((("py" : String).data).reverse) = ['y', 'p'] from rfl] at hd
  rw [List.cons_append, List.head?_cons] at hd
  rw [show ((("max_migration.txt" : String).data).reverse.head?) = some 't' from rfl] at hd
  exact absurd hd (by decide)

theorem prefix0001_ne_init (x : String) : ¬ ("0001_" ++ x = "__init__") := by
  intro h
  have hd : (("0001_" ++ x).data).head? = (("__init__" : String).data).head? := by rw [h]
  rw [String.data_append] at hd
  rw [show (("0001_" : String).data) = '0' :: ['0', '0', '1', '_'] from rfl] at hd
  rw [List.cons_append, List.head?_cons] at hd
  rw [show ((("__init__" : String).data).head?) = some '_' from rfl] at hd
  exact absurd hd (by decide)

theorem prefix0002_ne_init (x : String) : ¬ ("0002_" ++ x = "__init__") := by
  intro h
  have hd : (("0002_" ++ x).data).head? = (("__init__" : String).data).head? := by rw [h]
  rw [String.data_append] at hd
  rw [show (("0002_" : String).data) = '0' :: ['0', '0', '2', '_'] from rfl] at hd
  rw [List.cons_append, List.head?_cons] at hd
  rw [show ((("__init__" : String).data).head?) = some '_' from rfl] at hd
  exact absurd hd (by decide)

theorem migration_path_inj (app s m : String)
    (h : get_migration_path app s "py" = get_migration_path app m "py") : s = m := by
  unfold get_migration_path at h
  injection h with _ h2
  injection h2 with _ h3
  injection h3 with h4 _
  have : s ++ ".py" = m ++ ".py" := by
    rw [← dot_ext_py, ← dot_ext_py]
    exact h4
  exact append_right_cancel_str s m ".py" this

theorem startswith_0001_decomp (s : String) (h : pyStartswith s "0001_" = true) :
    "0001_" ++ pyDrop s 5 = s := by
  unfold pyStartswith at h
  rw [List.isPrefixOf_iff_prefix] at h
  rcases h with ⟨t, ht⟩
  apply String.ext
  rw [String.data_append]
  show ("0001_" : String).data ++ s.data.drop 5 = s.data
  rw [← ht]
  rw [show (5 : Nat) = (("0001_" : String).data).length from rfl]
  rw [List.drop_left]

theorem startswith_0001_ne_0002 (s x : String) (h : pyStartswith s "0001_" = true) :
    ¬ (s = "0002_" ++ x) := by
  intro hc
  rw [← startswith_0001_decomp s h] at hc
  have hd : ("0001_" ++ pyDrop s 5).data = ("0002_" ++ x).data := by rw [hc]
  rw [String.data_append, String.data_append] at hd
  have h4 : (("0001_" : String).data ++ (pyDrop s 5).data).take 4 =
      (("0002_" : String).data ++ x.data).take 4 := by rw [hd]
  rw [show ((("0001_" : String).data ++ (pyDrop s 5).data).take 4) =
    ['0', '0', '0', '1'] from rfl] at h4
  rw [show ((("0002_" : String).data ++ x.data).take 4) =
    ['0', '0', '0', '2'] from rfl] at h4
  exact absurd h4 (by decide)

theorem lookupA_map (g : String → String) (l : List String) (app : String)
    (hmem : app ∈ l) : lookupA (l.map (fun a => (a, g a))) app = some (g app) := by
  induction l with
  | nil => cases hmem
  | cons a rest ih =>
    rcases List.mem_cons.mp hmem with rfl | hmem2
    · simp [lookupA, List.find?]
    · by_cases ha : a = app
      · subst ha; simp [lookupA, List.find?]
      · simp only [List.map_cons, lookupA, List.find?]
        rw [show (decide (a = app)) = false from by simpa using ha]
        exact ih hmem2

theorem mem_migrationApps_of_read (fs : FS) (app f : String)
    (h : (FS.read fs [app, "migrations", f]).isSome = true) :
    app ∈ migrationApps fs := by
  unfold FS.read at h
  rw [Option.isSome_map', List.find?_isSome] at h
  rcases h with ⟨e, hmem, hkey⟩
  unfold migrationApps
  rw [mem_dedupFirst, List.mem_filterMap]
  refine ⟨e, hmem, ?_⟩
  have hk : e.1 = [app, "migrations", f] := by simpa using hkey
  rw [hk]
  rfl

theorem gitCheckout_ok_committed_isSome (committed : FPath → Option String)
    (paths : List FPath) (fs fs' : FS)
    (h : gitCheckout committed paths fs = Step.ok fs') :
    ∀ p ∈ paths, (committed p).isSome = true := by
  unfold gitCheckout at h
  split at h
  · rename_i hall
    exact hall
  · cases h

theorem deleteFold_inner_read (app : String) (q : FPath) :
    ∀ (migs : List String) (acc : FS),
      FS.read (migs.foldl (fun acc2 m => FS.erase acc2 (get_migration_path app m "py")) acc) q =
        if ∃ m ∈ migs, q = get_migration_path app m "py" then none else FS.read acc q := by
  intro migs
  induction migs with
  | nil => intro acc; simp
  | cons m rest ih =>
    intro acc
    simp only [List.foldl_cons]
    rw [ih]
    by_cases h1 : ∃ m2 ∈ rest, q = get_migration_path app m2 "py"
    · rw [if_pos h1, if_pos ?_]
      rcases h1 with ⟨m2, hm2, hq⟩
      exact ⟨m2, List.mem_cons_of_mem _ hm2, hq⟩
    · rw [if_neg h1, FS.read_erase]
      by_cases h2 : q = get_migration_path app m "py"
      · rw [if_pos h2, if_pos ⟨m, List.mem_cons_self m rest, h2⟩]
      · rw [if_neg h2, if_neg ?_]
        rintro ⟨m2, hm2, hq⟩
        rcases List.mem_cons.mp hm2 with rfl | hm3
        · exact h2 hq
        · exact h1 ⟨m2, hm3, hq⟩

theorem deleteFold_outer_read (q : FPath) :
    ∀ (cur : List (String × List String)) (fs : FS),
      FS.read (cur.foldl (fun acc pr =>
          pr.2.foldl (fun acc2 m => FS.erase acc2 (get_migration_path pr.1 m "py")) acc) fs) q =
        if ∃ pr ∈ cur, ∃ m ∈ pr.2, q = get_migration_path pr.1 m "py" then none
        else FS.read fs q := by
  intro cur
  induction cur with
  | nil => intro fs; simp
  | cons pr rest ih =>
    intro fs
    simp only [List.foldl_cons]
    rw [ih]
    rw [deleteFold_inner_read]
    by_cases h1 : ∃ pr2 ∈ rest, ∃ m ∈ pr2.2, q = get_migration_path pr2.1 m "py"
    · rw [if_pos h1, if_pos ?_]
      rcases h1 with ⟨pr2, hpr2, hm⟩
      exact ⟨pr2, List.mem_cons_of_mem _ hpr2, hm⟩
    · rw [if_neg h1]
      by_cases h2 : ∃ m ∈ pr.2, q = get_migration_path pr.1 m "py"
      · rw [if_pos h2, if_pos ⟨pr, List.mem_cons_self pr rest, h2⟩]
      · rw [if_neg h2, if_neg ?_]
        rintro ⟨pr2, hpr2, hm⟩
        rcases List.mem_cons.mp hpr2 with rfl | hpr3
        · exact h2 hm
        · exact h1 ⟨pr2, hpr3, hm⟩

theorem deleteMigrations_read (cur : List (String × List String)) (fs fsC : FS)
    (h : deleteMigrations cur fs = Step.ok fsC) (q : FPath) :
    FS.read fsC q =
      if ∃ pr ∈ cur, ∃ m ∈ pr.2, q = get_migration_path pr.1 m "py" then none
      else FS.read fs q := by
  unfold deleteMigrations at h
  split at h
  · have hfs : fsC = cur.foldl (fun acc pr =>
        pr.2.foldl (fun acc2 m => FS.erase acc2 (get_migration_path pr.1 m "py")) acc) fs := by
      cases h; rfl
    subst hfs
    exact deleteFold_outer_read q cur fs
  · cases h

/-! ### Generation-phase lemmas -/

theorem max_migration_path_eq (app : String) :
    get_max_migration_path app = [app, "migrations", "max_migration.txt"] := rfl

theorem genSteps_ok_shape (ic : String → String → String) :
    ∀ (cur : List (String × List String)) (fs : FS) (t : List FPath)
      (fs' : FS) (t' : List FPath),
      runBody (genSteps ic cur) fs t = Step.ok (fs', t') →
      ((∀ pr ∈ cur, ∃ first r, pr.2 = first :: r ∧ pyStartswith first "0001_" = true) ∧
       fs' = applyGens ic cur fs ∧ t' = t) := by
  intro cur
  induction cur with
  | nil =>
    intro fs t fs' t' h
    simp only [genSteps, runBody, Step.ok.injEq, Prod.mk.injEq] at h
    refine ⟨fun pr hpr => absurd hpr (List.not_mem_nil pr), ?_, h.2.symm⟩
    rw [← h.1]; rfl
  | cons pr rest ih =>
    intro fs t fs' t' h
    cases hm : pr.2 with
    | nil =>
      rw [show genSteps ic (pr :: rest) =
        (match pr.2 with
         | [] => [BodyStep.raiseE "IndexError: migrations[0]"]
         | first :: _ =>
           if pyStartswith first "0001_" then
             [BodyStep.act (makemigrationsApp ic pr.1 (pyDrop first 5))]
           else
             [BodyStep.raiseE "AssertionError: first_migration.startswith"]) ++
          genSteps ic rest from rfl, hm] at h
      simp [runBody] at h
    | cons first r =>
      rw [show genSteps ic (pr :: rest) =
        (match pr.2 with
         | [] => [BodyStep.raiseE "IndexError: migrations[0]"]
         | first :: _ =>
           if pyStartswith first "0001_" then
             [BodyStep.act (makemigrationsApp ic pr.1 (pyDrop first 5))]
           else
             [BodyStep.raiseE "AssertionError: first_migration.startswith"]) ++
          genSteps ic rest from rfl, hm] at h
      dsimp only at h
      by_cases hsw : pyStartswith first "0001_" = true
      · rw [if_pos hsw, List.singleton_append] at h
        rw [show runBody (BodyStep.act (makemigrationsApp ic pr.1 (pyDrop first 5)) ::
          genSteps ic rest) fs t =
          runBody (genSteps ic rest) (makemigrationsApp ic pr.1 (pyDrop first 5) fs) t
          from rfl] at h
        rcases ih _ _ _ _ h with ⟨hall, hfs, ht⟩
        refine ⟨?_, ?_, ht⟩
        · intro q hq
          rcases List.mem_cons.mp hq with rfl | hq2
          · exact ⟨first, r, hm, hsw⟩
          · exact hall q hq2
        · rw [hfs]
          rw [show applyGens ic (pr :: rest) fs =
            applyGens ic rest
              (match pr.2 with
               | [] => fs
               | first :: _ => makemigrationsApp ic pr.1 (pyDrop first 5) fs) from rfl, hm]
      · rw [if_neg hsw, List.singleton_append] at h
        simp [runBody] at h

theorem genSteps_mem_act (ic : String → String → String) (app first : String)
    (r : List String) (hsw : pyStartswith first "0001_" = true) :
    ∀ cur : List (String × List String), (app, first :: r) ∈ cur →
      BodyStep.act (makemigrationsApp ic app (pyDrop first 5)) ∈ genSteps ic cur := by
  intro cur
  induction cur with
  | nil => intro h; cases h
  | cons pr rest ih =>
    intro hmem
    rw [show genSteps ic (pr :: rest) =
      (match pr.2 with
       | [] => [BodyStep.raiseE "IndexError: migrations[0]"]
       | first :: _ =>
         if pyStartswith first "0001_" then
           [BodyStep.act (makemigrationsApp ic pr.1 (pyDrop first 5))]
         else
           [BodyStep.raiseE "AssertionError: first_migration.startswith"]) ++
        genSteps ic rest from rfl]
    rcases List.mem_cons.mp hmem with rfl | hmem2
    · rw [List.mem_append]
      left
      dsimp only
      rw [if_pos hsw]
      exact List.mem_singleton.mpr rfl
    · rw [List.mem_append]
      right
      exact ih hmem2

theorem applyGens_frame (ic : String → String → String) (app f0 : String) :
    ∀ (l : List (String × List String)) (fs : FS), (∀ pr ∈ l, ¬ pr.1 = app) →
      FS.read (applyGens ic l fs) [app, "migrations", f0] =
        FS.read fs [app, "migrations", f0] := by
  intro l
  induction l with
  | nil => intro fs _; rfl
  | cons pr rest ih =>
    intro fs hno
    rw [show applyGens ic (pr :: rest) fs =
      applyGens ic rest
        (match pr.2 with
         | [] => fs
         | first :: _ => makemigrationsApp ic pr.1 (pyDrop first 5) fs) from rfl]
    rw [ih _ (fun q hq => hno q (List.mem_cons_of_mem _ hq))]
    cases hm : pr.2 with
    | nil => rfl
    | cons first r =>
      unfold makemigrationsApp
      rw [FS.read_write, if_neg ?_, FS.read_write, if_neg ?_]
      · intro hc
        unfold get_migration_path at hc
        injection hc with h1 _
        exact hno pr (List.mem_cons_self pr rest) h1.symm
      · intro hc
        rw [max_migration_path_eq] at hc
        injection hc with h1 _
        exact hno pr (List.mem_cons_self pr rest) h1.symm

theorem applyGens_append (ic : String → String → String) :
    ∀ (a b : List (String × List String)) (fs : FS),
      applyGens ic (a ++ b) fs = applyGens ic b (applyGens ic a fs) := by
  intro a
  induction a with
  | nil => intro b fs; rfl
  | cons pr rest ih =>
    intro b fs
    rw [List.cons_append]
    rw [show applyGens ic ((pr :: (rest ++ b))) fs =
      applyGens ic (rest ++ b)
        (match pr.2 with
         | [] => fs
         | first :: _ => makemigrationsApp ic pr.1 (pyDrop first 5) fs) from rfl]
    rw [ih]
    rfl

theorem applyGens_read_hit (ic : String → String → String) (app first : String)
    (r : List String) (s : String) (l1 l2 : List (String × List String))
    (hno1 : ∀ pr ∈ l1, ¬ pr.1 = app) (hno2 : ∀ pr ∈ l2, ¬ pr.1 = app) (fs : FS) :
    FS.read (applyGens ic (l1 ++ (app, first :: r) :: l2) fs)
        (get_migration_path app s "py") =
      (if s = "0001_" ++ pyDrop first 5 then some (ic app (pyDrop first 5))
       else FS.read fs (get_migration_path app s "py")) := by
  rw [applyGens_append]
  rw [show applyGens ic ((app, first :: r) :: l2) (applyGens ic l1 fs) =
    applyGens ic l2 (makemigrationsApp ic app (pyDrop first 5) (applyGens ic l1 fs))
    from rfl]
  have hmig : get_migration_path app s "py" = [app, "migrations", s ++ "." ++ "py"] := rfl
  rw [hmig]
  rw [applyGens_frame ic app (s ++ "." ++ "py") l2 _ hno2]
  unfold makemigrationsApp
  rw [FS.read_write, if_neg ?_, FS.read_write]
  · by_cases hs : s = "0001_" ++ pyDrop first 5
    · rw [if_pos (by rw [hs]; rfl), if_pos hs]
    · rw [if_neg ?_, if_neg hs]
      · exact applyGens_frame ic app (s ++ "." ++ "py") l1 fs hno1
      · intro hc
        rw [show get_migration_path app ("0001_" ++ pyDrop first 5) "py" =
          [app, "migrations", ("0001_" ++ pyDrop first 5) ++ "." ++ "py"] from rfl] at hc
        injection hc with _ h2
        injection h2 with _ h3
        injection h3 with h4 _
        apply hs
        have : s ++ ".py" = ("0001_" ++ pyDrop first 5) ++ ".py" := by
          rw [← dot_ext_py, ← dot_ext_py]
          exact h4
        exact append_right_cancel_str _ _ _ this
  · intro hc
    rw [max_migration_path_eq] at hc
    injection hc with _ h2
    injection h2 with _ h3
    injection h3 with h4 _
    exact ext_py_ne_maxtxt s h4

theorem makemigrationsAll_frame (sc : String → String) (sq : String) (app f0 : String) :
    ∀ (l : List String) (fs : FS), (∀ a ∈ l, ¬ a = app) →
      FS.read (makemigrationsAll sc sq l fs) [app, "migrations", f0] =
        FS.read fs [app, "migrations", f0] := by
  intro l
  induction l with
  | nil => intro fs _; rfl
  | cons a rest ih =>
    intro fs hno
    rw [show makemigrationsAll sc sq (a :: rest) fs =
      makemigrationsAll sc sq rest
        (FS.write
          (FS.write fs (get_migration_path a ("0002_" ++ sq) "py") (sc a))
          (get_max_migration_path a) ("0002_" ++ sq ++ "\n")) from rfl]
    rw [ih _ (fun q hq => hno q (List.mem_cons_of_mem _ hq))]
    rw [FS.read_write, if_neg ?_, FS.read_write, if_neg ?_]
    · intro hc
      unfold get_migration_path at hc
      injection hc with h1 _
      exact hno a (List.mem_cons_self a rest) h1.symm
    · intro hc
      rw [max_migration_path_eq] at hc
      injection hc with h1 _
      exact hno a (List.mem_cons_self a rest) h1.symm

theorem makemigrationsAll_append (sc : String → String) (sq : String) :
    ∀ (a b : List String) (fs : FS),
      makemigrationsAll sc sq (a ++ b) fs =
        makemigrationsAll sc sq b (makemigrationsAll sc sq a fs) := by
  intro a
  induction a with
  | nil => intro b fs; rfl
  | cons x rest ih =>
    intro b fs
    rw [List.cons_append]
    rw [show makemigrationsAll sc sq (x :: (rest ++ b)) fs =
      makemigrationsAll sc sq (rest ++ b)
        (FS.write
          (FS.write fs (get_migration_path x ("0002_" ++ sq) "py") (sc x))
          (get_max_migration_path x) ("0002_" ++ sq ++ "\n")) from rfl]
    rw [ih]
    rfl

theorem makemigrationsAll_read_maxmig (sc : String → String) (sq : String)
    (app : String) (l1 l2 : List String)
    (hno2 : ∀ a ∈ l2, ¬ a = app) (fs : FS) :
    FS.read (makemigrationsAll sc sq (l1 ++ app :: l2) fs)
        (get_max_migration_path app) = some ("0002_" ++ sq ++ "\n") := by
  rw [makemigrationsAll_append]
  rw [show makemigrationsAll sc sq (app :: l2) (makemigrationsAll sc sq l1 fs) =
    makemigrationsAll sc sq l2
      (FS.write
        (FS.write (makemigrationsAll sc sq l1 fs)
          (get_migration_path app ("0002_" ++ sq) "py") (sc app))
        (get_max_migration_path app) ("0002_" ++ sq ++ "\n")) from rfl]
  rw [max_migration_path_eq]
  rw [makemigrationsAll_frame sc sq app _ l2 _ hno2]
  rw [← max_migration_path_eq, FS.read_write, if_pos rfl]

theorem makemigrationsAll_read_py (sc : String → String) (sq : String)
    (app s : String) (l1 l2 : List String)
    (hno1 : ∀ a ∈ l1, ¬ a = app) (hno2 : ∀ a ∈ l2, ¬ a = app) (fs : FS) :
    FS.read (makemigrationsAll sc sq (l1 ++ app :: l2) fs)
        (get_migration_path app s "py") =
      (if s = "0002_" ++ sq then some (sc app)
       else FS.read fs (get_migration_path app s "py")) := by
  rw [makemigrationsAll_append]
  rw [show makemigrationsAll sc sq (app :: l2) (makemigrationsAll sc sq l1 fs) =
    makemigrationsAll sc sq l2
      (FS.write
        (FS.write (makemigrationsAll sc sq l1 fs)
          (get_migration_path app ("0002_" ++ sq) "py") (sc app))
        (get_max_migration_path app) ("0002_" ++ sq ++ "\n")) from rfl]
  have hmig : get_migration_path app s "py" = [app, "migrations", s ++ "." ++ "py"] := rfl
  rw [hmig]
  rw [makemigrationsAll_frame sc sq app _ l2 _ hno2]
  rw [FS.read_write, if_neg ?_, FS.read_write]
  · by_cases hs : s = "0002_" ++ sq
    · rw [if_pos (by rw [hs]; rfl), if_pos hs]
    · rw [if_neg ?_, if_neg hs]
      · exact makemigrationsAll_frame sc sq app (s ++ "." ++ "py") l1 fs hno1
      · intro hc
        rw [show get_migration_path app ("0002_" ++ sq) "py" =
          [app, "migrations", ("0002_" ++ sq) ++ "." ++ "py"] from rfl] at hc
        injection hc with _ h2
        injection h2 with _ h3
        injection h3 with h4 _
        apply hs
        have : s ++ ".py" = ("0002_" ++ sq) ++ ".py" := by
          rw [← dot_ext_py, ← dot_ext_py]
          exact h4
        exact append_right_cancel_str _ _ _ this
  · intro hc
    rw [max_migration_path_eq] at hc
    injection hc with _ h2
    injection h2 with _ h3
    injection h3 with h4 _
    exact ext_py_ne_maxtxt s h4

/-! ### Generic helpers for the end-to-end claims -/

theorem write_isSome_mono (fs : FS) (p : FPath) (c : String) (q : FPath)
    (h : (FS.read fs q).isSome = true) :
    (FS.read (FS.write fs p c) q).isSome = true := by
  rw [FS.read_write]
  by_cases hq : q = p
  · rw [if_pos hq]; rfl
  · rw [if_neg hq]; exact h

theorem foldl_write_isSome_mono (committed : FPath → Option String) (q : FPath) :
    ∀ (paths : List FPath) (fs : FS), (FS.read fs q).isSome = true →
      (FS.read (paths.foldl (fun acc p => FS.write acc p ((committed p).getD "")) fs)
        q).isSome = true := by
  intro paths
  induction paths with
  | nil => intro fs hq; exact hq
  | cons r rest ih =>
    intro fs hq
    simp only [List.foldl_cons]
    exact ih _ (write_isSome_mono fs r _ q hq)

theorem gitCheckout_isSome_mono (committed : FPath → Option String)
    (paths : List FPath) (fs fs' : FS)
    (h : gitCheckout committed paths fs = Step.ok fs') (q : FPath)
    (hq : (FS.read fs q).isSome = true) :
    (FS.read fs' q).isSome = true := by
  unfold gitCheckout at h
  split at h
  · have hfs : fs' = paths.foldl (fun acc p => FS.write acc p ((committed p).getD "")) fs := by
      cases h; rfl
    subst hfs
    exact foldl_write_isSome_mono committed q paths fs hq
  · cases h

theorem split_by_key {β : Type} (app : String) (b : β) :
    ∀ l : List (String × β), (l.map (fun pr => pr.1)).Nodup → (app, b) ∈ l →
      ∃ s t, l = s ++ (app, b) :: t ∧ (∀ pr ∈ s, ¬ pr.1 = app) ∧
        (∀ pr ∈ t, ¬ pr.1 = app) := by
  intro l
  induction l with
  | nil => intro _ h; cases h
  | cons e rest ih =>
    intro hnd hmem
    rw [List.map_cons, List.nodup_cons] at hnd
    rcases List.mem_cons.mp hmem with rfl | hmem2
    · refine ⟨[], rest, rfl, fun pr hpr => absurd hpr (List.not_mem_nil pr), ?_⟩
      intro pr hpr hc
      apply hnd.1
      show app ∈ rest.map (fun pr => pr.1)
      rw [← hc]
      exact List.mem_map_of_mem (fun pr => pr.1) hpr
    · rcases ih hnd.2 hmem2 with ⟨s, t, hl, hs, ht⟩
      refine ⟨e :: s, t, by rw [hl, List.cons_append], ?_, ht⟩
      intro pr hpr
      rcases List.mem_cons.mp hpr with rfl | hpr2
      · intro hc
        apply hnd.1
        rw [hc]
        exact List.mem_map_of_mem (fun pr => pr.1) hmem2
      · exact hs pr hpr2

theorem split_nodup_mem (a : String) :
    ∀ l : List String, l.Nodup → a ∈ l →
      ∃ s t, l = s ++ a :: t ∧ (∀ x ∈ s, ¬ x = a) ∧ (∀ x ∈ t, ¬ x = a) := by
  intro l
  induction l with
  | nil => intro _ h; cases h
  | cons e rest ih =>
    intro hnd hmem
    rw [List.nodup_cons] at hnd
    rcases List.mem_cons.mp hmem with rfl | hmem2
    · refine ⟨[], rest, rfl, fun x hx => absurd hx (List.not_mem_nil x), ?_⟩
      intro x hx hc
      rw [hc] at hx
      exact hnd.1 hx
    · rcases ih hnd.2 hmem2 with ⟨s, t, hl, hs, ht⟩
      refine ⟨e :: s, t, by rw [hl, List.cons_append], ?_, ht⟩
      intro x hx
      rcases List.mem_cons.mp hx with rfl | hx2
      · intro hc
        rw [← hc] at hmem2
        exact hnd.1 hmem2
      · exact hs x hx2

theorem migrationApps_nodup (fs : FS) : (migrationApps fs).Nodup :=
  nodup_dedupFirst _

theorem list_migrations_keys (fs : FS) (cur : List (String × List String))
    (heads : List (String × String))
    (h : list_migrations fs = Step.ok (cur, heads)) :
    cur.map (fun pr => pr.1) = migrationApps fs ∧
    heads.map (fun pr => pr.1) = migrationApps fs := by
  rcases list_migrations_ok_shape fs cur heads h with ⟨hc, hh⟩
  constructor
  · rw [hc, List.map_map]
    exact List.map_id _
  · rw [hh, List.map_map]
    exact List.map_id _

theorem maxmig_ne_py (app a m : String) :
    ¬ get_max_migration_path app = get_migration_path a m "py" := by
  intro h
  rw [max_migration_path_eq] at h
  unfold get_migration_path at h
  injection h with _ h2
  injection h2 with _ h3
  injection h3 with h4 _
  apply ext_py_ne_maxtxt m
  rw [← h4]

theorem withReplacer_true_destruct (committed : FPath → Option String)
    (steps : List BodyStep) (fs fs' : FS)
    (h : withReplacer committed true steps fs = Step.ok fs') :
    ∃ fs₁ t, runBody steps fs [] = Step.ok (fs₁, t) ∧
      gitCheckout committed t fs₁ = Step.ok fs' := by
  unfold withReplacer at h
  cases hr : runBody steps fs [] with
  | fail e f => rw [hr] at h; cases h
  | ok pr =>
    rcases pr with ⟨fs₁, t⟩
    rw [hr] at h
    dsimp only at h
    exact ⟨fs₁, t, rfl, h⟩

theorem withReplacer_false_destruct (committed : FPath → Option String)
    (steps : List BodyStep) (fs fs' : FS)
    (h : withReplacer committed false steps fs = Step.ok fs') :
    ∃ t, runBody steps fs [] = Step.ok (fs', t) := by
  unfold withReplacer at h
  cases hr : runBody steps fs [] with
  | fail e f => rw [hr] at h; cases h
  | ok pr =>
    rcases pr with ⟨fs₁, t⟩
    rw [hr] at h
    dsimp only at h
    injection h with h1
    rw [← h1]
    exact ⟨t, rfl⟩

/-! ### The replaces-annotation phase as seen by the later phases -/

theorem findSquashPath_endswith (fs : FS) (a sq : String) (q : FPath)
    (h : findSquashPath fs a sq = some q) :
    ∃ f, q = [a, "migrations", f] ∧ pyEndswith f ("_" ++ sq ++ ".py") = true := by
  unfold findSquashPath at h
  cases hf : fs.find? (fun e =>
    match e.1 with
    | [a2, m, f] => a2 = a ∧ m = "migrations" ∧ pyEndswith f ("_" ++ sq ++ ".py") = true
    | _ => false) with
  | none => rw [hf] at h; cases h
  | some e =>
    rw [hf] at h
    have hq : e.1 = q := by simpa using h
    have hpred := List.find?_some hf
    rcases hp : e.1 with _ | ⟨a2, tl⟩
    · rw [hp] at hpred; simp at hpred
    rcases tl with _ | ⟨m, tl2⟩
    · rw [hp] at hpred; simp at hpred
    rcases tl2 with _ | ⟨f, tl3⟩
    · rw [hp] at hpred; simp at hpred
    rcases tl3 with _ | _
    · rw [hp] at hpred
      simp only [decide_eq_true_eq] at hpred
      rcases hpred with ⟨ha, hm, hew⟩
      refine ⟨f, ?_, hew⟩
      rw [← hq, hp, ha, hm]
    · rw [hp] at hpred; simp at hpred

theorem endswith_sq_ne_maxtxt (f sq : String)
    (h : pyEndswith f ("_" ++ sq ++ ".py") = true) : ¬ f = "max_migration.txt" := by
  intro hc
  subst hc
  unfold pyEndswith at h
  rw [List.isSuffixOf_iff_suffix] at h
  rcases h with ⟨t, ht⟩
  have hrev := congrArg List.reverse ht
  rw [List.reverse_append] at hrev
  have hpat : ("_" ++ sq ++ ".py").data.reverse =
      'y' :: 'p' :: '.' :: (sq.data.reverse ++ ['_']) := by
    rw [String.data_append, String.data_append, List.reverse_append, List.reverse_append]
    rfl
  rw [hpat] at hrev
  rw [show ("max_migration.txt" : String).data.reverse =
    't' :: "xt.noitargim_xam".data from rfl] at hrev
  rw [List.cons_append] at hrev
  injection hrev with h1 _
  exact absurd h1 (by decide)

theorem appendReplacesAll_ok_destruct (squashName : String)
    (cur : List (String × List String)) (fs fs' : FS)
    (h : appendReplacesAll squashName cur fs = Step.ok fs') :
    fs' = cur.foldl (fun acc pr =>
      FS.write acc ((findSquashPath fs pr.1 squashName).getD [])
        ((FS.read acc ((findSquashPath fs pr.1 squashName).getD [])).getD ""
          ++ replacesBlock pr.1 pr.2)) fs := by
  unfold appendReplacesAll at h
  split at h
  · cases h; rfl
  · cases h

theorem appendFold_isSome (squashName : String) (fs : FS) (q : FPath) :
    ∀ (l : List (String × List String)) (acc : FS),
      (FS.read acc q).isSome = true →
      (FS.read (l.foldl (fun acc2 pr =>
        FS.write acc2 ((findSquashPath fs pr.1 squashName).getD [])
          ((FS.read acc2 ((findSquashPath fs pr.1 squashName).getD [])).getD ""
            ++ replacesBlock pr.1 pr.2)) acc) q).isSome = true := by
  intro l
  induction l with
  | nil => intro acc hq; exact hq
  | cons pr rest ih =>
    intro acc hq
    simp only [List.foldl_cons]
    exact ih _ (write_isSome_mono _ _ _ q hq)

theorem appendFold_read_maxmig (squashName : String) (fs : FS) (app : String) :
    ∀ (l : List (String × List String)) (acc : FS),
      FS.read (l.foldl (fun acc2 pr =>
        FS.write acc2 ((findSquashPath fs pr.1 squashName).getD [])
          ((FS.read acc2 ((findSquashPath fs pr.1 squashName).getD [])).getD ""
            ++ replacesBlock pr.1 pr.2)) acc) (get_max_migration_path app) =
      FS.read acc (get_max_migration_path app) := by
  intro l
  induction l with
  | nil => intro acc; rfl
  | cons pr rest ih =>
    intro acc
    simp only [List.foldl_cons]
    rw [ih]
    rw [FS.read_write, if_neg ?_]
    cases hf : findSquashPath fs pr.1 squashName with
    | none =>
      simp only [hf, Option.getD_none]
      intro hc
      rw [max_migration_path_eq] at hc
      cases hc
    | some p =>
      simp only [hf, Option.getD_some]
      rcases findSquashPath_endswith fs pr.1 squashName p hf with ⟨f, rfl, hew⟩
      intro hc
      rw [max_migration_path_eq] at hc
      injection hc with _ h2
      injection h2 with _ h3
      injection h3 with h4 _
      exact endswith_sq_ne_maxtxt f squashName hew h4.symm

theorem makemigrationsAll_isSome_mono (sc : String → String) (sq : String) (q : FPath) :
    ∀ (l : List String) (fs : FS), (FS.read fs q).isSome = true →
      (FS.read (makemigrationsAll sc sq l fs) q).isSome = true := by
  intro l
  induction l with
  | nil => intro fs h; exact h
  | cons a rest ih =>
    intro fs h
    rw [show makemigrationsAll sc sq (a :: rest) fs =
      makemigrationsAll sc sq rest
        (FS.write
          (FS.write fs (get_migration_path a ("0002_" ++ sq) "py") (sc a))
          (get_max_migration_path a) ("0002_" ++ sq ++ "\n")) from rfl]
    exact ih _ (write_isSome_mono _ _ _ q (write_isSome_mono _ _ _ q h))

theorem fsF_read_maxmig (E : Env) (cur : List (String × List String)) (fsD fsF : FS)
    (app : String)
    (happ : appendReplacesAll E.squashName cur
      (makemigrationsAll E.squashContent E.squashName (cur.map (fun pr => pr.1)) fsD)
      = Step.ok fsF)
    (l1 l2 : List String)
    (hsplit : cur.map (fun pr => pr.1) = l1 ++ app :: l2)
    (hno2 : ∀ a ∈ l2, ¬ a = app) :
    FS.read fsF (get_max_migration_path app) = some ("0002_" ++ E.squashName ++ "\n") := by
  have hE := makemigrationsAll_read_maxmig E.squashContent E.squashName app l1 l2 hno2 fsD
  rw [← hsplit] at hE
  rw [appendReplacesAll_ok_destruct _ _ _ _ happ, appendFold_read_maxmig]
  exact hE

theorem squash_head_lookup (E : Env) (fsF : FS) (inv2 : List (String × List String))
    (heads2 : List (String × String)) (app : String)
    (hl2 : list_migrations fsF = Step.ok (inv2, heads2))
    (hread : FS.read fsF (get_max_migration_path app) = some ("0002_" ++ E.squashName ++ "\n"))
    (hstrip : pyStrip ("0002_" ++ E.squashName ++ "\n") = "0002_" ++ E.squashName) :
    lookupA heads2 app = some ("0002_" ++ E.squashName) := by
  rcases list_migrations_ok_shape fsF inv2 heads2 hl2 with ⟨_, hh⟩
  have happ : app ∈ migrationApps fsF := by
    apply mem_migrationApps_of_read fsF app "max_migration.txt"
    rw [show ([app, "migrations", "max_migration.txt"] : FPath) =
      get_max_migration_path app from rfl]
    rw [hread]
    rfl
  rw [hh, lookupA_map _ _ app happ, hread]
  simp only [Option.getD_some]
  rw [hstrip]

theorem pyTake_append_4 (oh ex : String) (h : 4 ≤ oh.data.length) :
    pyTake (pyTake oh 4 ++ pyDrop ex 4) 4 = pyTake oh 4 := by
  apply String.ext
  show ((pyTake oh 4 ++ pyDrop ex 4).data).take 4 = oh.data.take 4
  rw [String.data_append]
  show ((oh.data.take 4) ++ ex.data.drop 4).take 4 = oh.data.take 4
  have hlen : (oh.data.take 4).length = 4 := by
    rw [List.length_take]
    exact Nat.min_eq_left h
  rw [List.take_left' hlen]

theorem pyDrop_append_4 (oh ex : String) (h : 4 ≤ oh.data.length) :
    pyDrop (pyTake oh 4 ++ pyDrop ex 4) 4 = pyDrop ex 4 := by
  apply String.ext
  show ((pyTake oh 4 ++ pyDrop ex 4).data).drop 4 = ex.data.drop 4
  rw [String.data_append]
  show ((oh.data.take 4) ++ ex.data.drop 4).drop 4 = ex.data.drop 4
  have hlen : (oh.data.take 4).length = 4 := by
    rw [List.length_take]
    exact Nat.min_eq_left h
  rw [List.drop_left' hlen]

/-! ### The dependency-rewrite phase as seen by the later phases -/

theorem rewriteSteps_repShaped (inv2 : List (String × List String))
    (subs : List (String × String)) :
    ∀ st ∈ rewriteSteps inv2 subs, ∃ su fi op, st = BodyStep.rep su fi op := by
  intro st hst
  rcases List.mem_map.mp hst with ⟨pr, _, heq⟩
  exact ⟨subs, _, true, heq.symm⟩

theorem rewrite_preserves_read (subs : List (String × String)) (q : FPath)
    (hq : ∀ a m, ¬ q = get_migration_path a m "py") :
    ∀ (inv2 : List (String × List String)) (fs : FS) (t : List FPath)
      (fs' : FS) (t' : List FPath),
      runBody (rewriteSteps inv2 subs) fs t = Step.ok (fs', t') →
      FS.read fs' q = FS.read fs q := by
  intro inv2
  induction inv2 with
  | nil =>
    intro fs t fs' t' h
    simp only [rewriteSteps, List.map_nil, runBody, Step.ok.injEq, Prod.mk.injEq] at h
    rw [← h.1]
  | cons pr rest ih =>
    intro fs t fs' t' h
    simp only [rewriteSteps, List.map_cons, runBody] at h
    cases hr : replaceFiles subs (pr.2.map (fun m => get_migration_path pr.1 m "py")) true fs t with
    | fail e f => rw [hr] at h; cases h
    | ok p2 =>
      rcases p2 with ⟨fs₁, t₁⟩
      rw [hr] at h
      have h1 := replaceFiles_ok_read_outside subs
        (pr.2.map (fun m => get_migration_path pr.1 m "py")) true fs₁ t₁ fs t hr q ?_
      · have h2 := ih fs₁ t₁ fs' t' h
        rw [h2, h1]
      · intro hmem
        rcases List.mem_map.mp hmem with ⟨m, _, hqe⟩
        exact hq pr.1 m hqe.symm

/-! ### The renumbering phase -/

theorem renumber_ok_destruct (heads2 : List (String × String))
    (pairs : List (String × String)) (fs fs' : FS)
    (h : renumber heads2 pairs fs = Step.ok fs') :
    fs' = pairs.foldl (fun acc pr =>
      let existingHead := (lookupA heads2 pr.1).getD ""
      let newHead := pyTake pr.2 4 ++ pyDrop existingHead 4
      let existingPath := get_migration_path pr.1 existingHead "py"
      let c := (FS.read acc existingPath).getD ""
      FS.write
        (FS.write (FS.erase acc existingPath) (get_migration_path pr.1 newHead "py") c)
        (get_max_migration_path pr.1) (newHead ++ "\n")) fs := by
  unfold renumber at h
  split at h
  · cases h; rfl
  · cases h

theorem renumFold_frame (heads2 : List (String × String)) (app x : String) :
    ∀ (l : List (String × String)) (acc : FS), (∀ pr ∈ l, ¬ pr.1 = app) →
      FS.read (l.foldl (fun acc pr =>
        let existingHead := (lookupA heads2 pr.1).getD ""
        let newHead := pyTake pr.2 4 ++ pyDrop existingHead 4
        let existingPath := get_migration_path pr.1 existingHead "py"
        let c := (FS.read acc existingPath).getD ""
        FS.write
          (FS.write (FS.erase acc existingPath) (get_migration_path pr.1 newHead "py") c)
          (get_max_migration_path pr.1) (newHead ++ "\n")) acc) [app, "migrations", x] =
      FS.read acc [app, "migrations", x] := by
  intro l
  induction l with
  | nil => intro acc _; rfl
  | cons pr rest ih =>
    intro acc hno
    simp only [List.foldl_cons]
    rw [ih _ (fun p hp => hno p (List.mem_cons_of_mem _ hp))]
    have hne := hno pr (List.mem_cons_self pr rest)
    rw [FS.read_write, if_neg ?_, FS.read_write, if_neg ?_, FS.read_erase, if_neg ?_]
    · intro hc
      unfold get_migration_path at hc
      injection hc with h1 _
      exact hne h1.symm
    · intro hc
      unfold get_migration_path at hc
      injection hc with h1 _
      exact hne h1.symm
    · intro hc
      rw [max_migration_path_eq] at hc
      injection hc with h1 _
      exact hne h1.symm

theorem renumFold_isSome_mono (heads2 : List (String × String)) (q : FPath) :
    ∀ (l : List (String × String)) (acc : FS),
      (∀ pr ∈ l, ¬ q = get_migration_path pr.1 ((lookupA heads2 pr.1).getD "") "py") →
      (FS.read acc q).isSome = true →
      (FS.read (l.foldl (fun acc pr =>
        let existingHead := (lookupA heads2 pr.1).getD ""
        let newHead := pyTake pr.2 4 ++ pyDrop existingHead 4
        let existingPath := get_migration_path pr.1 existingHead "py"
        let c := (FS.read acc existingPath).getD ""
        FS.write
          (FS.write (FS.erase acc existingPath) (get_migration_path pr.1 newHead "py") c)
          (get_max_migration_path pr.1) (newHead ++ "\n")) acc) q).isSome = true := by
  intro l
  induction l with
  | nil => intro acc _ hq; exact hq
  | cons pr rest ih =>
    intro acc hno hq
    simp only [List.foldl_cons]
    apply ih _ (fun p hp => hno p (List.mem_cons_of_mem _ hp))
    apply write_isSome_mono
    apply write_isSome_mono
    rw [FS.read_erase, if_neg (hno pr (List.mem_cons_self pr rest))]
    exact hq

theorem renumFold_read_self (heads2 : List (String × String)) (app oh : String)
    (l1 l2 : List (String × String)) (hno2 : ∀ pr ∈ l2, ¬ pr.1 = app) (fs : FS) :
    FS.read ((l1 ++ (app, oh) :: l2).foldl (fun acc pr =>
        let existingHead := (lookupA heads2 pr.1).getD ""
        let newHead := pyTake pr.2 4 ++ pyDrop existingHead 4
        let existingPath := get_migration_path pr.1 existingHead "py"
        let c := (FS.read acc existingPath).getD ""
        FS.write
          (FS.write (FS.erase acc existingPath) (get_migration_path pr.1 newHead "py") c)
          (get_max_migration_path pr.1) (newHead ++ "\n")) fs)
      (get_max_migration_path app) =
      some ((pyTake oh 4 ++ pyDrop ((lookupA heads2 app).getD "") 4) ++ "\n") ∧
    (FS.read ((l1 ++ (app, oh) :: l2).foldl (fun acc pr =>
        let existingHead := (lookupA heads2 pr.1).getD ""
        let newHead := pyTake pr.2 4 ++ pyDrop existingHead 4
        let existingPath := get_migration_path pr.1 existingHead "py"
        let c := (FS.read acc existingPath).getD ""
        FS.write
          (FS.write (FS.erase acc existingPath) (get_migration_path pr.1 newHead "py") c)
          (get_max_migration_path pr.1) (newHead ++ "\n")) fs)
      (get_migration_path app
        (pyTake oh 4 ++ pyDrop ((lookupA heads2 app).getD "") 4) "py")).isSome = true := by
  rw [List.foldl_append, List.foldl_cons]
  constructor
  · rw [max_migration_path_eq, renumFold_frame heads2 app _ l2 _ hno2]
    dsimp only
    rw [FS.read_write, if_pos rfl]
  · rw [show get_migration_path app
      (pyTake oh 4 ++ pyDrop ((lookupA heads2 app).getD "") 4) "py" =
      [app, "migrations",
        (pyTake oh 4 ++ pyDrop ((lookupA heads2 app).getD "") 4) ++ "." ++ "py"] from rfl]
    rw [renumFold_frame heads2 app _ l2 _ hno2]
    dsimp only
    rw [FS.read_write, if_neg ?_, FS.read_write,
      if_pos (show ([app, "migrations",
        (pyTake oh 4 ++ pyDrop ((lookupA heads2 app).getD "") 4) ++ "." ++ "py"] : FPath) =
        get_migration_path app (pyTake oh 4 ++ pyDrop ((lookupA heads2 app).getD "") 4) "py"
        from rfl)]
    · rfl
    · intro hc
      rw [max_migration_path_eq] at hc
      injection hc with _ h2
      injection h2 with _ h3
      injection h3 with h4 _
      exact ext_py_ne_maxtxt _ h4

/-! ### The restore phase -/

theorem restore_append (committed : FPath → Option String) :
    ∀ (a b : List (String × List String)) (fs : FS),
      restore committed (a ++ b) fs =
        match restore committed a fs with
        | Step.fail e f => Step.fail e f
        | Step.ok f => restore committed b f := by
  intro a
  induction a with
  | nil => intro b fs; rfl
  | cons pr rest ih =>
    intro b fs
    rw [List.cons_append]
    rw [show restore committed (pr :: (rest ++ b)) fs =
      (match gitCheckout committed ((pr.2.drop 1).map (fun m => get_migration_path pr.1 m "py")) fs with
       | Step.fail e f => Step.fail e f
       | Step.ok fs₁ => restore committed (rest ++ b) fs₁) from rfl]
    rw [show restore committed (pr :: rest) fs =
      (match gitCheckout committed ((pr.2.drop 1).map (fun m => get_migration_path pr.1 m "py")) fs with
       | Step.fail e f => Step.fail e f
       | Step.ok fs₁ => restore committed rest fs₁) from rfl]
    cases hg : gitCheckout committed ((pr.2.drop 1).map (fun m => get_migration_path pr.1 m "py")) fs with
    | fail e f => rfl
    | ok fs₁ => exact ih b fs₁

theorem restore_isSome_mono (committed : FPath → Option String) (q : FPath) :
    ∀ (l : List (String × List String)) (fs fs' : FS),
      restore committed l fs = Step.ok fs' →
      (FS.read fs q).isSome = true → (FS.read fs' q).isSome = true := by
  intro l
  induction l with
  | nil =>
    intro fs fs' h hq
    rw [show restore committed [] fs = Step.ok fs from rfl] at h
    injection h with h1
    rw [← h1]
    exact hq
  | cons pr rest ih =>
    intro fs fs' h hq
    rw [show restore committed (pr :: rest) fs =
      (match gitCheckout committed ((pr.2.drop 1).map (fun m => get_migration_path pr.1 m "py")) fs with
       | Step.fail e f => Step.fail e f
       | Step.ok fs₁ => restore committed rest fs₁) from rfl] at h
    cases hg : gitCheckout committed ((pr.2.drop 1).map (fun m => get_migration_path pr.1 m "py")) fs with
    | fail e f => rw [hg] at h; cases h
    | ok fs₁ =>
      rw [hg] at h
      exact ih fs₁ fs' h (gitCheckout_isSome_mono committed _ fs fs₁ hg q hq)

theorem restore_read_frame (committed : FPath → Option String) (q : FPath)
    (hq : ∀ a m, ¬ q = get_migration_path a m "py") :
    ∀ (l : List (String × List String)) (fs fs' : FS),
      restore committed l fs = Step.ok fs' →
      FS.read fs' q = FS.read fs q := by
  intro l
  induction l with
  | nil =>
    intro fs fs' h
    rw [show restore committed [] fs = Step.ok fs from rfl] at h
    injection h with h1
    rw [← h1]
  | cons pr rest ih =>
    intro fs fs' h
    rw [show restore committed (pr :: rest) fs =
      (match gitCheckout committed ((pr.2.drop 1).map (fun m => get_migration_path pr.1 m "py")) fs with
       | Step.fail e f => Step.fail e f
       | Step.ok fs₁ => restore committed rest fs₁) from rfl] at h
    cases hg : gitCheckout committed ((pr.2.drop 1).map (fun m => get_migration_path pr.1 m "py")) fs with
    | fail e f => rw [hg] at h; cases h
    | ok fs₁ =>
      rw [hg] at h
      rw [ih fs₁ fs' h]
      apply gitCheckout_ok_read_outside committed _ fs fs₁ hg q
      intro hmem
      rcases List.mem_map.mp hmem with ⟨m, _, hqe⟩
      exact hq pr.1 m hqe.symm

/-! ### Destructuring a completed run into its phases -/

theorem crush_completed_destruct (E : Env) (fs0 fsFin : FS) (log : List String)
    (cur : List (String × List String)) (heads1 : List (String × String))
    (hlist : list_migrations fs0 = Step.ok (cur, heads1))
    (h : crush_migrations E fs0 = Step.ok (Outcome.completed, fsFin, log)) :
    ∃ fsC fsD fsF inv2 heads2 subs fsG fsH,
      deleteMigrations cur fs0 = Step.ok fsC ∧
      withReplacer E.committed true (patchSteps ++ genSteps E.initContent cur) fsC
        = Step.ok fsD ∧
      appendReplacesAll E.squashName cur
        (makemigrationsAll E.squashContent E.squashName (cur.map (fun pr => pr.1)) fsD)
        = Step.ok fsF ∧
      list_migrations fsF = Step.ok (inv2, heads2) ∧
      buildDepSubsts inv2 fsF = Step.ok subs ∧
      withReplacer E.committed false (rewriteSteps inv2 subs) fsF = Step.ok fsG ∧
      renumber heads2 heads1 fsG = Step.ok fsH ∧
      restore E.committed cur fsH = Step.ok fsFin := by
  unfold crush_migrations at h
  rw [hlist] at h
  dsimp only at h
  by_cases hany : cur.any (fun pr => pr.2.length < 2)
  · rw [if_pos hany] at h
    simp at h
  · rw [if_neg hany] at h
    cases hfsq : findSquashes E.hasReplaces fs0 cur with
    | fail e f => rw [hfsq] at h; cases h
    | ok hits =>
      rw [hfsq] at h
      dsimp only at h
      by_cases hhits : hits = []
      · rw [if_neg (not_not_intro hhits)] at h
        cases hdel : deleteMigrations cur fs0 with
        | fail e f => rw [hdel] at h; cases h
        | ok fsC =>
          rw [hdel] at h
          dsimp only at h
          cases hwr : withReplacer E.committed true
              (patchSteps ++ genSteps E.initContent cur) fsC with
          | fail e f => rw [hwr] at h; cases h
          | ok fsD =>
            rw [hwr] at h
            dsimp only at h
            cases happ : appendReplacesAll E.squashName cur
                (makemigrationsAll E.squashContent E.squashName
                  (cur.map (fun pr => pr.1)) fsD) with
            | fail e f => rw [happ] at h; cases h
            | ok fsF =>
              rw [happ] at h
              dsimp only at h
              cases hl2 : list_migrations fsF with
              | fail e f => rw [hl2] at h; cases h
              | ok pr2 =>
                rcases pr2 with ⟨inv2, heads2⟩
                rw [hl2] at h
                dsimp only at h
                cases hbd : buildDepSubsts inv2 fsF with
                | fail e f => rw [hbd] at h; cases h
                | ok subs =>
                  rw [hbd] at h
                  dsimp only at h
                  cases hwr2 : withReplacer E.committed false
                      (rewriteSteps inv2 subs) fsF with
                  | fail e f => rw [hwr2] at h; cases h
                  | ok fsG =>
                    rw [hwr2] at h
                    dsimp only at h
                    cases hren : renumber heads2 heads1 fsG with
                    | fail e f => rw [hren] at h; cases h
                    | ok fsH =>
                      rw [hren] at h
                      dsimp only at h
                      cases hres : restore E.committed cur fsH with
                      | fail e f => rw [hres] at h; cases h
                      | ok fsI =>
                        rw [hres] at h
                        dsimp only at h
                        simp only [Step.ok.injEq, Prod.mk.injEq] at h
                        rw [h.2.1] at hres
                        exact ⟨fsC, fsD, fsF, inv2, heads2, subs, fsG, fsH,
                          rfl, hwr, happ, hl2, hbd, hwr2, hren, hres⟩
      · rw [if_pos hhits] at h
        simp at h

/-! ### The concrete completed run (shared by the end-to-end witnesses) -/

set_option maxRecDepth 100000 in
theorem scRun_eq : crush_migrations scEnv scFS = Step.ok scOut := by decide

set_option maxRecDepth 100000 in
theorem scOut_completed : scOut.1 = Outcome.completed := by decide

set_option maxRecDepth 100000 in
theorem scList_eq : list_migrations scFS =
    Step.ok ([("alpha", ["0001_start", "0002_b", "0003_c"])], [("alpha", "0003_c")]) := by
  decide

/-! ### Claim C9: the initial-migration name assertion -/

/-- Claim C9: in every run that completes successfully, each application of
the inventory has a nonempty migration list whose lexically first
identifier starts with `0001_` — the generation loop asserts
`first_migration.startswith("0001_")` and would have aborted the run
otherwise — and the generator invocation recorded for that application
passes the name `first_migration[5:]`, the identifier with its first five
characters removed.  The spec states no such precondition. -/
theorem claim_C9 (E : Env) (fs0 : FS) (out : Outcome × FS × List String)
    (h : crush_migrations E fs0 = Step.ok out) (hout : out.1 = Outcome.completed)
    (cur : List (String × List String)) (heads1 : List (String × String))
    (hlist : list_migrations fs0 = Step.ok (cur, heads1))
    (app : String) (migs : List String) (hpr : (app, migs) ∈ cur) :
    ∃ first r, migs = first :: r ∧ pyStartswith first "0001_" = true ∧
      BodyStep.act (makemigrationsApp E.initContent app (pyDrop first 5))
        ∈ genSteps E.initContent cur := by
  rcases out with ⟨o, fsFin, log⟩
  have ho : o = Outcome.completed := hout
  subst ho
  rcases crush_completed_destruct E fs0 fsFin log cur heads1 hlist h with
    ⟨fsC, fsD, fsF, inv2, heads2, subs, fsG, fsH, hdel, hwr, _, _, _, _, _, _⟩
  rcases withReplacer_true_destruct E.committed _ fsC fsD hwr with ⟨fs₁, t, hrb, _⟩
  rw [runBody_append] at hrb
  cases hp : runBody patchSteps fsC [] with
  | fail e f => rw [hp] at hrb; cases hrb
  | ok pr1 =>
    rcases pr1 with ⟨fsp, tp⟩
    rw [hp] at hrb
    rcases genSteps_ok_shape E.initContent cur fsp tp fs₁ t hrb with ⟨hall, _, _⟩
    rcases hall (app, migs) hpr with ⟨first, r, hm, hsw⟩
    refine ⟨first, r, hm, hsw, ?_⟩
    apply genSteps_mem_act E.initContent app first r hsw cur
    rw [← hm]
    exact hpr

/-- Claim C9, witness: the concrete completed run on `scFS`, whose single
application `alpha` has first migration `0001_start`, instantiates the
assertion and the generator invocation with name `start`. -/
theorem claim_C9_witness :
    ∃ first r, (["0001_start", "0002_b", "0003_c"] : List String) = first :: r ∧
      pyStartswith first "0001_" = true ∧
      BodyStep.act (makemigrationsApp scEnv.initContent "alpha" (pyDrop first 5))
        ∈ genSteps scEnv.initContent [("alpha", ["0001_start", "0002_b", "0003_c"])] :=
  claim_C9 scEnv scFS scOut scRun_eq scOut_completed
    [("alpha", ["0001_start", "0002_b", "0003_c"])] [("alpha", "0003_c")] scList_eq
    "alpha" ["0001_start", "0002_b", "0003_c"] (by decide)

/-! ### Claim C4: the head pointer file after a completed run -/

/-- Claim C4: after a successful completed run, each application's head
pointer file names `orig_head[:4] + existing_head[4:]`, the pre-run head's
four-character numeric prefix glued to the regenerated squash head's
remainder; provided the pre-run head has at least four characters, the new
value's numeric prefix equals the pre-run head's prefix while its suffix is
the squash head's descriptive suffix.  (The regenerated head is
`0002_<squash name>`, written by the spec-modelled external generator and
read back through the second inventory; `hstrip` states that stripping the
head file's trailing newline recovers it.) -/
theorem claim_C4 (E : Env) (fs0 : FS) (out : Outcome × FS × List String)
    (h : crush_migrations E fs0 = Step.ok out) (hout : out.1 = Outcome.completed)
    (cur : List (String × List String)) (heads1 : List (String × String))
    (hlist : list_migrations fs0 = Step.ok (cur, heads1))
    (app oh : String) (hph : (app, oh) ∈ heads1)
    (hlen : 4 ≤ oh.data.length)
    (hstrip : pyStrip ("0002_" ++ E.squashName ++ "\n") = "0002_" ++ E.squashName) :
    ∃ newHead,
      FS.read out.2.1 (get_max_migration_path app) = some (newHead ++ "\n") ∧
      pyTake newHead 4 = pyTake oh 4 ∧
      pyDrop newHead 4 = pyDrop ("0002_" ++ E.squashName) 4 := by
  rcases out with ⟨o, fsFin, log⟩
  have ho : o = Outcome.completed := hout
  subst ho
  rcases crush_completed_destruct E fs0 fsFin log cur heads1 hlist h with
    ⟨fsC, fsD, fsF, inv2, heads2, subs, fsG, fsH, hdel, hwr, happ, hl2, hbd, hwr2, hren, hres⟩
  rcases list_migrations_keys fs0 cur heads1 hlist with ⟨hkc, hkh⟩
  have hnd1 : (heads1.map (fun pr => pr.1)).Nodup := by
    rw [hkh]; exact migrationApps_nodup fs0
  have happm : app ∈ migrationApps fs0 := by
    rw [← hkh]
    exact List.mem_map_of_mem (fun pr => pr.1) hph
  have hndc : (cur.map (fun pr => pr.1)).Nodup := by
    rw [hkc]; exact migrationApps_nodup fs0
  have happc : app ∈ cur.map (fun pr => pr.1) := by
    rw [hkc]; exact happm
  rcases split_nodup_mem app (cur.map (fun pr => pr.1)) hndc happc with
    ⟨l1, l2, hsp, _, hno2⟩
  have hmax := fsF_read_maxmig E cur fsD fsF app happ l1 l2 hsp hno2
  have hlk := squash_head_lookup E fsF inv2 heads2 app hl2 hmax hstrip
  rcases split_by_key app oh heads1 hnd1 hph with ⟨p1, p2, hsp1, _, hn2⟩
  have hfsH := renumber_ok_destruct heads2 heads1 fsG fsH hren
  rw [hsp1] at hfsH
  rcases renumFold_read_self heads2 app oh p1 p2 hn2 fsG with ⟨hrmax, _⟩
  rw [← hfsH] at hrmax
  rw [hlk] at hrmax
  simp only [Option.getD_some] at hrmax
  have hfin := restore_read_frame E.committed (get_max_migration_path app)
    (fun a m => maxmig_ne_py app a m) cur fsH fsFin hres
  refine ⟨pyTake oh 4 ++ pyDrop ("0002_" ++ E.squashName) 4, ?_, ?_, ?_⟩
  · show FS.read fsFin (get_max_migration_path app) = _
    rw [hfin]
    exact hrmax
  · exact pyTake_append_4 oh _ hlen
  · exact pyDrop_append_4 oh _ hlen

/-- Claim C4, witness: in the concrete completed run the head pointer file
of `alpha` holds `0003_squashed_on_20260101_000000`, whose prefix `0003`
is the pre-run head prefix and whose suffix is the squash head suffix. -/
theorem claim_C4_witness :
    ∃ newHead,
      FS.read scOut.2.1 (get_max_migration_path "alpha") = some (newHead ++ "\n") ∧
      pyTake newHead 4 = pyTake "0003_c" 4 ∧
      pyDrop newHead 4 = pyDrop ("0002_" ++ scEnv.squashName) 4 :=
  claim_C4 scEnv scFS scOut scRun_eq scOut_completed
    [("alpha", ["0001_start", "0002_b", "0003_c"])] [("alpha", "0003_c")] scList_eq
    "alpha" "0003_c" (by decide) (by decide) (by decide)

/-! ### Claim C1: the migration directory after a completed run -/

/-- Claim C1, counterexample: a successful completed run on a concrete
application with three migrations leaves FOUR migration files in its
migration directory — the initial migration, the two restored non-initial
originals, and the renamed squash — not exactly two: the final
`git checkout` restores every originally-deleted migration except the
first. -/
theorem claim_C1_counterexample :
    crush_migrations scEnv scFS = Step.ok scOut ∧
    scOut.1 = Outcome.completed ∧
    migrationStems scOut.2.1 "alpha" =
      ["0001_start", "0002_b", "0003_c", "0003_squashed_on_20260101_000000"] ∧
    ¬ (migrationStems scOut.2.1 "alpha").length = 2 := by
  refine ⟨scRun_eq, scOut_completed, ?_, ?_⟩
  · set_option maxRecDepth 100000 in decide
  · set_option maxRecDepth 100000 in decide

/-- Claim C1, amended: after a successful completed run an application's
migration directory contains the initial migration (reusing the original
first migration's name, since `0001_ ++ first[5:]` is `first` itself), the
squash migration renamed to carry the original head's numeric prefix
(`orig_head[:4] + existing_head[4:]`), and ALSO every other original
migration, which the final `git checkout` restores from version control —
so the directory holds the original files plus the renamed squash rather
than exactly two files. -/
theorem claim_C1_amended (E : Env) (fs0 : FS) (out : Outcome × FS × List String)
    (h : crush_migrations E fs0 = Step.ok out) (hout : out.1 = Outcome.completed)
    (cur : List (String × List String)) (heads1 : List (String × String))
    (hlist : list_migrations fs0 = Step.ok (cur, heads1))
    (app : String) (migs : List String) (first : String) (rest : List String)
    (hpr : (app, migs) ∈ cur) (hm : migs = first :: rest)
    (oh : String) (hph : (app, oh) ∈ heads1)
    (hstrip : pyStrip ("0002_" ++ E.squashName ++ "\n") = "0002_" ++ E.squashName)
    (hni : ¬ pyTake oh 4 ++ pyDrop ("0002_" ++ E.squashName) 4 = "__init__")
    (s : String)
    (hs : s = first ∨ s = pyTake oh 4 ++ pyDrop ("0002_" ++ E.squashName) 4 ∨
      s ∈ migs.drop 1) :
    s ∈ migrationStems out.2.1 app := by
  rcases out with ⟨o, fsFin, log⟩
  have ho : o = Outcome.completed := hout
  subst ho
  show s ∈ migrationStems fsFin app
  rcases crush_completed_destruct E fs0 fsFin log cur heads1 hlist h with
    ⟨fsC, fsD, fsF, inv2, heads2, subs, fsG, fsH, hdel, hwr, happ, hl2, hbd, hwr2, hren, hres⟩
  rcases list_migrations_keys fs0 cur heads1 hlist with ⟨hkc, hkh⟩
  have hnd1 : (heads1.map (fun pr => pr.1)).Nodup := by
    rw [hkh]; exact migrationApps_nodup fs0
  have hndc : (cur.map (fun pr => pr.1)).Nodup := by
    rw [hkc]; exact migrationApps_nodup fs0
  have happm : app ∈ migrationApps fs0 := by
    rw [← hkh]; exact List.mem_map_of_mem (fun pr => pr.1) hph
  have happc : app ∈ cur.map (fun pr => pr.1) := by rw [hkc]; exact happm
  rcases split_nodup_mem app (cur.map (fun pr => pr.1)) hndc happc with
    ⟨l1, l2, hsp, hno1s, hno2s⟩
  have hmax := fsF_read_maxmig E cur fsD fsF app happ l1 l2 hsp hno2s
  have hlk := squash_head_lookup E fsF inv2 heads2 app hl2 hmax hstrip
  have hmigs : migs = migrationStems fs0 app :=
    (list_migrations_ok_mem fs0 cur heads1 app migs hlist hpr).2
  rcases hs with heq | heq | hdrop
  · subst heq
    have hfmem : s ∈ migrationStems fs0 app := by
      rw [← hmigs, hm]
      exact List.mem_cons_self s rest
    have hfni : ¬ s = "__init__" := ((mem_migrationStems fs0 app s).mp hfmem).1
    rcases withReplacer_true_destruct E.committed _ fsC fsD hwr with ⟨fs₁, t, hrb, hgc⟩
    rw [runBody_append] at hrb
    cases hp : runBody patchSteps fsC [] with
    | fail e f => rw [hp] at hrb; cases hrb
    | ok pr1 =>
      rcases pr1 with ⟨fsp, tp⟩
      rw [hp] at hrb
      rcases genSteps_ok_shape E.initContent cur fsp tp fs₁ t hrb with ⟨hall, hfs₁, _⟩
      rcases hall (app, migs) hpr with ⟨first2, r2, hm2, hsw2⟩
      have hff : first2 = s := by
        have hcc : s :: rest = first2 :: r2 := by rw [← hm]; exact hm2
        injection hcc with h1 _
        exact h1.symm
      have hsw : pyStartswith s "0001_" = true := by
        rw [← hff]; exact hsw2
      rcases split_by_key app migs cur hndc hpr with ⟨c1, c2, hcsp, hcno1, hcno2⟩
      rw [hm] at hcsp
      have hhit := applyGens_read_hit E.initContent app s rest s
        c1 c2 hcno1 hcno2 fsp
      rw [hcsp] at hfs₁
      rw [← hfs₁] at hhit
      rw [if_pos ((startswith_0001_decomp s hsw).symm)] at hhit
      have h1 : (FS.read fs₁ (get_migration_path app s "py")).isSome = true := by
        rw [hhit]; rfl
      have h2 := gitCheckout_isSome_mono E.committed t fs₁ fsD hgc _ h1
      have h3 := makemigrationsAll_isSome_mono E.squashContent E.squashName
        (get_migration_path app s "py") (cur.map (fun pr => pr.1)) fsD h2
      have h4 : (FS.read fsF (get_migration_path app s "py")).isSome = true := by
        rw [appendReplacesAll_ok_destruct _ _ _ _ happ]
        exact appendFold_isSome E.squashName _ _ cur _ h3
      rcases withReplacer_false_destruct E.committed _ fsF fsG hwr2 with ⟨t2, hrb2⟩
      have h5 : (FS.read fsG (get_migration_path app s "py")).isSome = true := by
        rw [runBody_repShaped_isSome (rewriteSteps inv2 subs)
          (rewriteSteps_repShaped inv2 subs) fsF fsG [] t2 hrb2]
        exact h4
      have hq6 : ∀ pr ∈ heads1, ¬ get_migration_path app s "py" =
          get_migration_path pr.1 ((lookupA heads2 pr.1).getD "") "py" := by
        intro pr hprm hc
        by_cases hpa : pr.1 = app
        · rw [hpa, hlk] at hc
          simp only [Option.getD_some] at hc
          have hinj := migration_path_inj app s _ hc
          exact startswith_0001_ne_0002 s E.squashName hsw hinj
        · have hcc := hc
          unfold get_migration_path at hcc
          injection hcc with h1 _
          exact hpa h1.symm
      have hfsH := renumber_ok_destruct heads2 heads1 fsG fsH hren
      have h6 : (FS.read fsH (get_migration_path app s "py")).isSome = true := by
        rw [hfsH]
        exact renumFold_isSome_mono heads2 _ heads1 fsG hq6 h5
      have h7 := restore_isSome_mono E.committed _ cur fsH fsFin hres h6
      exact (mem_migrationStems fsFin app s).mpr ⟨hfni, h7⟩
  · subst heq
    rcases split_by_key app oh heads1 hnd1 hph with ⟨p1, p2, hsp1, _, hn2⟩
    have hfsH := renumber_ok_destruct heads2 heads1 fsG fsH hren
    rw [hsp1] at hfsH
    rcases renumFold_read_self heads2 app oh p1 p2 hn2 fsG with ⟨_, hrnew⟩
    rw [← hfsH] at hrnew
    rw [hlk] at hrnew
    simp only [Option.getD_some] at hrnew
    have h7 := restore_isSome_mono E.committed _ cur fsH fsFin hres hrnew
    exact (mem_migrationStems fsFin app _).mpr ⟨hni, h7⟩
  · have hsmem : s ∈ migrationStems fs0 app := by
      rw [← hmigs]
      exact List.mem_of_mem_drop hdrop
    have hsni : ¬ s = "__init__" := ((mem_migrationStems fs0 app s).mp hsmem).1
    rcases split_by_key app migs cur hndc hpr with ⟨c1, c2, hcsp, hcno1, hcno2⟩
    rw [hcsp, restore_append] at hres
    cases hr1 : restore E.committed c1 fsH with
    | fail e f => rw [hr1] at hres; cases hres
    | ok fsa =>
      rw [hr1] at hres
      dsimp only at hres
      rw [show restore E.committed ((app, migs) :: c2) fsa =
        (match gitCheckout E.committed
            ((migs.drop 1).map (fun m => get_migration_path app m "py")) fsa with
         | Step.fail e f => Step.fail e f
         | Step.ok fs₁ => restore E.committed c2 fs₁) from rfl] at hres
      cases hg : gitCheckout E.committed
          ((migs.drop 1).map (fun m => get_migration_path app m "py")) fsa with
      | fail e f => rw [hg] at hres; cases hres
      | ok fsb =>
        rw [hg] at hres
        have hpmem : get_migration_path app s "py" ∈
            (migs.drop 1).map (fun m => get_migration_path app m "py") :=
          List.mem_map_of_mem (fun m => get_migration_path app m "py") hdrop
        have hcomm := gitCheckout_ok_committed_isSome E.committed _ fsa fsb hg _ hpmem
        have hread := gitCheckout_ok_read_mem E.committed _ fsa fsb hg _ hpmem
        have hbs : (FS.read fsb (get_migration_path app s "py")).isSome = true := by
          rw [hread]; exact hcomm
        have h7 := restore_isSome_mono E.committed _ c2 fsb fsFin hres hbs
        exact (mem_migrationStems fsFin app s).mpr ⟨hsni, h7⟩

/-- Claim C1, amended, witness: in the concrete completed run the restored
non-initial original migration `0002_b` is present in the final migration
directory of `alpha`. -/
theorem claim_C1_witness :
    "0002_b" ∈ migrationStems scOut.2.1 "alpha" :=
  claim_C1_amended scEnv scFS scOut scRun_eq scOut_completed
    [("alpha", ["0001_start", "0002_b", "0003_c"])] [("alpha", "0003_c")] scList_eq
    "alpha" ["0001_start", "0002_b", "0003_c"] "0001_start" ["0002_b", "0003_c"]
    (by decide) (by decide)
    "0003_c" (by decide)
    (by decide) (by decide)
    "0002_b" (Or.inr (Or.inr (by decide)))
